import Mathlib

/-!
# Verification of the `ic_mple_structures` collection core

Shallow embedding of the hardest-engineering parts of the `ic_mple`
repository: the stable ring buffer (`ringbuffer/mod.rs`), the
schema-versioning codecs (`common/codec.rs`, `test_utils.rs`), the ordered
map abstraction (`btreemap/mod.rs`) and the LRU-cached map
(`btreemap/cached.rs`).

Conventions of the embedding:
* Rust `u64` values are modelled as `Nat`; wherever the source performs
  `u64` arithmetic that can overflow, the wrap is made explicit with
  `% U64` (release/wasm semantics: two's-complement wrapping).
* The stable backing vector (`VecExt`, delegating to the external
  `ic_stable_structures::vec::Vec`) is modelled as a Lean `List`, with
  `get`/`set`/`push`/`pop`/`clear` given their documented semantics.
* Fallible reads return `Option`; an `expect`/panic in the source is
  modelled by propagating the `Option` (theorems prove the value is
  present in every well-formed state, so the panic path is dead).
-/

namespace IcMple

def U64 : Nat := 2 ^ 64

/-- Model of Rust `u64::checked_sub`. -/
def checkedSub (a b : Nat) : Option Nat := if b ≤ a then some (a - b) else none

/-! ## Ring buffer index record — `ringbuffer/mod.rs` lines 12-82 -/

/-- `StableRingBufferIndices`: `{start, len, capacity}` index record. -/
structure StableRingBufferIndices where
  start : Nat
  len : Nat
  capacity : Nat
deriving DecidableEq

namespace StableRingBufferIndices

/-- `StableRingBufferIndices::new(capacity)`. -/
def new (capacity : Nat) : StableRingBufferIndices := ⟨0, 0, capacity⟩

/-- `offset_to_index`: `(self.start + offset) % self.capacity` in `u64`. -/
def offsetToIndex (i : StableRingBufferIndices) (offset : Nat) : Nat :=
  ((i.start + offset) % U64) % i.capacity

/-- `nth_element`: `(n < self.len).then_some((self.start + n) % self.capacity)`. -/
def nthElement (i : StableRingBufferIndices) (n : Nat) : Option Nat :=
  if n < i.len then some (((i.start + n) % U64) % i.capacity) else none

/-- `nth_element_from_end`:
`let index_from_start = self.len.checked_sub(index + 1)?; self.nth_element(index_from_start)`. -/
def nthElementFromEnd (i : StableRingBufferIndices) (n : Nat) : Option Nat :=
  (checkedSub i.len ((n + 1) % U64)).bind i.nthElement

/-- `increase_len`: `self.len = min(self.len + by, self.capacity)`. -/
def increaseLen (i : StableRingBufferIndices) (b : Nat) : StableRingBufferIndices :=
  { i with len := min ((i.len + b) % U64) i.capacity }

/-- `decrease_len`: `self.len = self.len.saturating_sub(arg)`. -/
def decreaseLen (i : StableRingBufferIndices) (n : Nat) : StableRingBufferIndices :=
  { i with len := i.len - n }

/-- `increase_start`: `self.start = self.offset_to_index(by)`. -/
def increaseStart (i : StableRingBufferIndices) (b : Nat) : StableRingBufferIndices :=
  { i with start := i.offsetToIndex b }

/-- `is_empty`. -/
def isEmpty (i : StableRingBufferIndices) : Bool := i.len = 0

end StableRingBufferIndices

/-! ## Ring buffer — `ringbuffer/mod.rs` lines 117-290

The buffer owns the backing vector (`data`, a stable vector modelled as a
`List`) and the index record kept in a `StableCell` (modelled by holding
the record directly; `with_indices_data_mut` clones the record, runs the
mutation and stores it back, which is plain state passing here). -/

structure StableRingBuffer (T : Type) where
  data : List T
  indices : StableRingBufferIndices

namespace StableRingBuffer

/-- `StableRingBuffer::new` over fresh memories: empty vector, zeroed indices. -/
def new (T : Type) (capacity : Nat) : StableRingBuffer T :=
  ⟨[], StableRingBufferIndices.new capacity⟩

/-- `clear`: reset the index record at the current capacity and clear the vector. -/
def clear (b : StableRingBuffer T) : StableRingBuffer T :=
  ⟨[], StableRingBufferIndices.new b.indices.capacity⟩

/-- `len`. -/
def len (b : StableRingBuffer T) : Nat := b.indices.len

/-- `is_empty`. -/
def isEmpty (b : StableRingBuffer T) : Bool := b.indices.len = 0

/-- `capacity`. -/
def capacity (b : StableRingBuffer T) : Nat := b.indices.capacity

/-- `push(val)`: returns the new buffer and the evicted element, if any.

Source (lines 217-239): compute `new_index = offset_to_index(len)`; when
full, advance `start` and read the element to evict (`expect` modelled by
the `Option`); otherwise grow `len`.  Then write `val` at `new_index`
(append when `new_index = data.len()`, overwrite otherwise). -/
def push (b : StableRingBuffer T) (v : T) : StableRingBuffer T × Option T :=
  let newIndex := b.indices.offsetToIndex b.indices.len
  let p :
      StableRingBufferIndices × Option T :=
    if b.indices.len = b.indices.capacity then
      (b.indices.increaseStart 1, b.data[newIndex]?)
    else
      (b.indices.increaseLen 1, none)
  let data' := if newIndex = b.data.length then b.data ++ [v] else b.data.set newIndex v
  (⟨data', p.1⟩, p.2)

/-- `pop()`: remove and return the logically-last element. -/
def pop (b : StableRingBuffer T) : StableRingBuffer T × Option T :=
  match checkedSub b.indices.len 1 with
  | none => (b, none)
  | some newLen =>
    let indices' := b.indices.decreaseLen 1
    (⟨b.data, indices'⟩, b.data[indices'.offsetToIndex newLen]?)

/-- `truncate(n)`: logical shrink only. -/
def truncate (b : StableRingBuffer T) (n : Nat) : StableRingBuffer T :=
  ⟨b.data, b.indices.decreaseLen n⟩

/-- `nth_element(n)`: `let index = self.indices.get().nth_element(n)?; self.data.get(index)`. -/
def nthElement (b : StableRingBuffer T) (n : Nat) : Option T :=
  (b.indices.nthElement n).bind (fun i => b.data[i]?)

/-- `nth_element_from_end(n)`. -/
def nthElementFromEnd (b : StableRingBuffer T) (n : Nat) : Option T :=
  (b.indices.nthElementFromEnd n).bind (fun i => b.data[i]?)

/-- `first()`. -/
def first (b : StableRingBuffer T) : Option T := b.nthElement 0

/-- `last()`. -/
def last (b : StableRingBuffer T) : Option T := b.nthElementFromEnd 0

/-- `resize(new_capacity)` (lines 184-212): no-op when unchanged; otherwise
collect the most recent `min(len, new_capacity)` elements (oldest first:
offsets from the end, reversed), clear the vector, re-push them, and reset
the index record (`new` followed by `increase_len`). -/
def resize (b : StableRingBuffer T) (newCapacity : Nat) : StableRingBuffer T :=
  if newCapacity = b.indices.capacity then b
  else
    let elementsToCopy := min b.indices.len newCapacity
    let elements :=
      ((List.range elementsToCopy).reverse).filterMap (fun off => b.nthElementFromEnd off)
    ⟨elements, (StableRingBufferIndices.new newCapacity).increaseLen elementsToCopy⟩

/-- Data-model invariant of the ring buffer (spec §3): `len ≤ capacity`,
the backing vector has length in `[0, capacity]`, every logical position
maps to a physically present slot.  Strengthened to be inductive: either
the logical window is an unwrapped prefix of the vector
(`start + len ≤ data.length`) or the vector is completely filled
(`data.length = capacity`).  `capacity ≤ 2^63` keeps all `u64` index
arithmetic below the wrap. -/
def Wf (b : StableRingBuffer T) : Prop :=
  0 < b.indices.capacity ∧
  b.indices.capacity ≤ 2 ^ 63 ∧
  b.indices.start < b.indices.capacity ∧
  b.indices.len ≤ b.indices.capacity ∧
  b.data.length ≤ b.indices.capacity ∧
  (b.indices.start + b.indices.len ≤ b.data.length ∨ b.data.length = b.indices.capacity)

/-- Logical contents of the buffer, oldest first, as the source reads them. -/
def absOf (b : StableRingBuffer T) : List (Option T) :=
  (List.range b.indices.len).map (fun i => b.nthElement i)

end StableRingBuffer

/-! ### Arithmetic helper lemmas -/

theorem u64_pos : 0 < U64 := by decide

theorem mod_u64_eq {a : Nat} (h : a < U64) : a % U64 = a := Nat.mod_eq_of_lt h

/-- Characterization of `(s + i) % c` when `s < c` and `i ≤ c`. -/
theorem add_mod_char {s i c : Nat} (hs : s < c) (hi : i ≤ c) :
    (s + i) % c = if s + i < c then s + i else s + i - c := by
  split
  · exact Nat.mod_eq_of_lt (by omega)
  · have h2 : s + i - c < c := by omega
    have : (s + i) % c = (s + i - c) % c := by
      conv_lhs => rw [show s + i = (s + i - c) + c by omega]
      simp [Nat.add_mod_right]
    rw [this, Nat.mod_eq_of_lt h2]

/-- Distinct logical offsets below capacity map to distinct physical slots. -/
theorem slot_inj {s c : Nat} (hs : s < c) {i j : Nat} (hi : i ≤ c) (hj : j ≤ c)
    (h : (s + i) % c = (s + j) % c) : i = j ∨ (i = 0 ∧ j = c) ∨ (i = c ∧ j = 0) := by
  rw [add_mod_char hs hi, add_mod_char hs hj] at h
  split at h <;> split at h <;> omega

/-! ### List access helper lemmas -/

theorem getElem?_set_ne' {α : Type u} (l : List α) {i j : Nat} (a : α) (h : i ≠ j) :
    (l.set i a)[j]? = l[j]? := by
  induction l generalizing i j with
  | nil => simp
  | cons x xs ih =>
    cases i with
    | zero => cases j with
      | zero => omega
      | succ j => simp
    | succ i => cases j with
      | zero => simp
      | succ j =>
        have : i ≠ j := by omega
        simpa using ih this

theorem getElem?_set_self' {α : Type u} (l : List α) {i : Nat} (a : α) (h : i < l.length) :
    (l.set i a)[i]? = some a := by
  induction l generalizing i with
  | nil => simp at h
  | cons x xs ih =>
    cases i with
    | zero => simp
    | succ i =>
      have : i < xs.length := by simpa using h
      simpa using ih this

theorem getElem?_snoc_ne {α : Type u} (l : List α) {j : Nat} (a : α) (h : j ≠ l.length) :
    (l ++ [a])[j]? = l[j]? := by
  rcases Nat.lt_or_ge j l.length with hj | hj
  · rw [List.getElem?_append_left hj]
  · have h1 : l[j]? = none := by
      rw [List.getElem?_eq_none_iff]; omega
    have h2 : (l ++ [a])[j]? = none := by
      rw [List.getElem?_eq_none_iff]; simp; omega
    rw [h1, h2]

theorem getElem?_snoc_self {α : Type u} (l : List α) (a : α) :
    (l ++ [a])[l.length]? = some a := by
  rw [List.getElem?_append_right (Nat.le_refl _)]
  simp

namespace StableRingBuffer

variable {T : Type}

theorem absOf_getElem? (b : StableRingBuffer T) (n : Nat) :
    (absOf b)[n]? = if n < b.indices.len then some (b.nthElement n) else none := by
  unfold absOf
  rcases Nat.lt_or_ge n b.indices.len with h | h
  · rw [if_pos h, List.getElem?_map, List.getElem?_range h]; rfl
  · rw [if_neg (by omega), List.getElem?_eq_none_iff.mpr (by simpa using h)]

theorem nthElement_of_ge (b : StableRingBuffer T) {n : Nat} (h : b.indices.len ≤ n) :
    b.nthElement n = none := by
  simp [nthElement, StableRingBufferIndices.nthElement, Nat.not_lt_of_ge h]

/-- If the logical contents are `l`, then `nth_element` reads `l` pointwise. -/
theorem rel_nthElement {b : StableRingBuffer T} {l : List T}
    (hlen : l.length = b.indices.len) (h : absOf b = l.map some) (n : Nat) :
    b.nthElement n = l[n]? := by
  rcases Nat.lt_or_ge n b.indices.len with hn | hn
  · have := congrArg (fun xs => xs[n]?) h
    simp only [absOf_getElem?, if_pos hn, List.getElem?_map] at this
    rcases hl : l[n]? with _ | w
    · rw [hl] at this; simp at this
    · rw [hl] at this; simp at this; simpa using this
  · rw [nthElement_of_ge b hn, List.getElem?_eq_none_iff.mpr (by omega)]

theorem rel_length {b : StableRingBuffer T} {l : List T}
    (h : absOf b = l.map some) : l.length = b.indices.len := by
  have := congrArg List.length h
  simpa [absOf] using this.symm

end StableRingBuffer

/-! ### The pure FIFO model

`fifoPush` is the specification-level push on a plain list (oldest first):
when full, drop the head (oldest) and return it; otherwise append. -/

def fifoPush {T : Type} (C : Nat) (l : List T) (v : T) : List T × Option T :=
  if l.length = C then (l.tail ++ [v], l.head?) else (l ++ [v], none)

def fifoPushAll {T : Type} (C : Nat) (l : List T) : List T → List T × List (Option T)
  | [] => (l, [])
  | x :: xs =>
    let p := fifoPush C l x
    let q := fifoPushAll C p.1 xs
    (q.1, p.2 :: q.2)

namespace StableRingBuffer

variable {T : Type}

/-- `pushAll`: fold `push` over a list, collecting the evicted values. -/
def pushAll (b : StableRingBuffer T) : List T → StableRingBuffer T × List (Option T)
  | [] => (b, [])
  | x :: xs =>
    let p := b.push x
    let q := p.1.pushAll xs
    (q.1, p.2 :: q.2)

theorem indices_nthElement_eq {i : StableRingBufferIndices}
    (hcap : i.capacity ≤ 2 ^ 63) (hs : i.start < i.capacity)
    {n : Nat} (hn : n < i.len) (hnc : n ≤ i.capacity) :
    i.nthElement n = some ((i.start + n) % i.capacity) := by
  have h63 : (2:ℕ) ^ 63 = 9223372036854775808 := by norm_num
  have hU : U64 = 18446744073709551616 := by norm_num [U64]
  rw [h63] at hcap
  unfold StableRingBufferIndices.nthElement
  rw [if_pos hn, mod_u64_eq (by omega)]

/-- In a well-formed buffer every logical position maps to a present slot. -/
theorem slot_lt_of_wf {b : StableRingBuffer T} (hwf : Wf b)
    {n : Nat} (hn : n < b.indices.len) :
    (b.indices.start + n) % b.indices.capacity < b.data.length := by
  obtain ⟨hc0, hc63, hs, hlc, hdc, hdisj⟩ := hwf
  rcases hdisj with hlin | hfill
  · rw [add_mod_char hs (by omega)]
    split <;> omega
  · rw [hfill]
    exact Nat.mod_lt _ hc0

/-- Single-step refinement: `push` on a well-formed buffer behaves exactly
like the pure FIFO `fifoPush` on its logical contents. -/
theorem push_refines {b : StableRingBuffer T} {l : List T} (hwf : Wf b)
    (habs : absOf b = l.map some) (v : T) :
    Wf (b.push v).1 ∧
    (b.push v).1.indices.capacity = b.indices.capacity ∧
    absOf (b.push v).1 = ((fifoPush b.indices.capacity l v).1).map some ∧
    (b.push v).2 = (fifoPush b.indices.capacity l v).2 := by
  have h63 : (2:ℕ) ^ 63 = 9223372036854775808 := by norm_num
  have hU : U64 = 18446744073709551616 := by norm_num [U64]
  obtain ⟨hc0, hc63, hs, hlc, hdc, hdisj⟩ := hwf
  rw [h63] at hc63
  have hlenl : l.length = b.indices.len := rel_length habs
  have hnth := rel_nthElement hlenl habs
  by_cases hfull : b.indices.len = b.indices.capacity
  · -- full: overwrite slot `start`, advance `start`, evict the oldest
    have hdl : b.data.length = b.indices.capacity := by
      rcases hdisj with h | h
      · omega
      · exact h
    have hnis : b.indices.offsetToIndex b.indices.capacity = b.indices.start := by
      unfold StableRingBufferIndices.offsetToIndex
      rw [mod_u64_eq (by omega), add_mod_char hs (Nat.le_refl _)]
      split <;> omega
    have hne : ¬ b.indices.start = b.data.length := by omega
    have hb1i : (b.push v).1.indices = b.indices.increaseStart 1 := by
      simp [push, hfull]
    have hb2 : (b.push v).2 = b.data[b.indices.start]? := by
      simp [push, hfull, hnis]
    have hb1d : (b.push v).1.data = b.data.set b.indices.start v := by
      simp [push, hfull, hnis, hne]
    have hs' : (b.push v).1.indices.start = (b.indices.start + 1) % b.indices.capacity := by
      rw [hb1i]
      unfold StableRingBufferIndices.increaseStart StableRingBufferIndices.offsetToIndex
      rw [mod_u64_eq (by omega)]
    have hl' : (b.push v).1.indices.len = b.indices.len := by rw [hb1i]; rfl
    have hc' : (b.push v).1.indices.capacity = b.indices.capacity := by rw [hb1i]; rfl
    have hlpos : 0 < l.length := by omega
    rcases l with _ | ⟨l0, lt⟩
    · simp at hlpos
    have hltlen : lt.length + 1 = b.indices.len := by simpa using hlenl
    have hmodel : fifoPush b.indices.capacity (l0 :: lt) v = (lt ++ [v], some l0) := by
      unfold fifoPush
      rw [if_pos (by simpa [← hfull] using hlenl)]
      rfl
    have hmodel1 : (fifoPush b.indices.capacity (l0 :: lt) v).1 = lt ++ [v] := by
      rw [hmodel]
    have hmodel2 : (fifoPush b.indices.capacity (l0 :: lt) v).2 = some l0 := by
      rw [hmodel]
    have hd'len : (b.push v).1.data.length = b.indices.capacity := by
      rw [hb1d, List.length_set, hdl]
    refine ⟨?_, hc', ?_, ?_⟩
    · exact ⟨by omega, by rw [hc', h63]; omega, by
        rw [hs', hc']; exact Nat.mod_lt _ hc0, by omega, by omega,
        Or.inr (by rw [hc', hd'len])⟩
    · -- contents after a full push: tail of the old contents, then `v`
      rw [hmodel1]
      apply List.ext_getElem?
      intro n
      rw [absOf_getElem?, hl', hfull]
      have htl : (lt ++ [v]).length = b.indices.capacity := by
        rw [List.length_append]
        simp
        omega
      rcases Nat.lt_or_ge n b.indices.capacity with hn | hn
      · rw [if_pos hn, List.getElem?_map]
        have key : (b.push v).1.nthElement n = (lt ++ [v])[n]? := by
          unfold nthElement
          rw [indices_nthElement_eq (by rw [hc', h63]; omega)
            (by rw [hs', hc']; exact Nat.mod_lt _ hc0) (by omega) (by rw [hc']; omega)]
          rw [Option.some_bind, hs', hc', Nat.mod_add_mod]
          rcases Nat.lt_or_ge n (b.indices.capacity - 1) with hn1 | hn1
          · -- not the freshly written slot: old element shifted by one
            have hslot_ne : (b.indices.start + 1 + n) % b.indices.capacity
                ≠ b.indices.start := by
              rw [Nat.add_assoc, add_mod_char hs (by omega)]
              split <;> omega
            rw [hb1d, getElem?_set_ne' _ _ (fun h => hslot_ne h.symm)]
            have hold : b.nthElement (n + 1) = (l0 :: lt)[n + 1]? := hnth (n + 1)
            unfold nthElement at hold
            rw [indices_nthElement_eq (by omega) hs (by omega) (by omega),
              Option.some_bind, List.getElem?_cons_succ] at hold
            rw [show b.indices.start + 1 + n = b.indices.start + (n + 1) by omega, hold]
            rw [List.getElem?_append_left (by omega)]
          · -- the freshly written slot holds `v`
            have hslot_eq : (b.indices.start + 1 + n) % b.indices.capacity
                = b.indices.start := by
              rw [show b.indices.start + 1 + n = b.indices.start + b.indices.capacity by
                omega, add_mod_char hs (Nat.le_refl _)]
              split <;> omega
            rw [hslot_eq, hb1d, getElem?_set_self' _ _ (by omega)]
            rw [show n = lt.length by omega, getElem?_snoc_self]
        rw [key, List.getElem?_eq_getElem (by omega)]
        rfl
      · rw [if_neg (by omega)]
        exact (List.getElem?_eq_none_iff.mpr (by rw [List.length_map]; omega)).symm
    · rw [hb2, hmodel2]
      have h0 : b.nthElement 0 = (l0 :: lt)[0]? := hnth 0
      unfold nthElement at h0
      rw [indices_nthElement_eq (by omega) hs (by omega) (by omega),
        Option.some_bind, Nat.add_zero, Nat.mod_eq_of_lt hs] at h0
      rw [h0]
      simp
  · -- not full: append / overwrite the next free slot, len grows by one
    have hlt : b.indices.len < b.indices.capacity := by omega
    have hb1i : (b.push v).1.indices = b.indices.increaseLen 1 := by
      simp [push, hfull]
    have hb2 : (b.push v).2 = none := by
      simp [push, hfull]
    have hs' : (b.push v).1.indices.start = b.indices.start := by rw [hb1i]; rfl
    have hc' : (b.push v).1.indices.capacity = b.indices.capacity := by rw [hb1i]; rfl
    have hl' : (b.push v).1.indices.len = b.indices.len + 1 := by
      rw [hb1i]
      unfold StableRingBufferIndices.increaseLen
      simp only
      rw [mod_u64_eq (by omega)]
      omega
    have hmodel : fifoPush b.indices.capacity l v = (l ++ [v], none) := by
      unfold fifoPush
      rw [if_neg (by omega)]
    have hmodel1 : (fifoPush b.indices.capacity l v).1 = l ++ [v] := by
      rw [hmodel]
    have hmodel2 : (fifoPush b.indices.capacity l v).2 = none := by
      rw [hmodel]
    have hni' : b.indices.offsetToIndex b.indices.len
        = (b.indices.start + b.indices.len) % b.indices.capacity := by
      unfold StableRingBufferIndices.offsetToIndex
      rw [mod_u64_eq (by omega)]
    have hni_lt : b.indices.offsetToIndex b.indices.len < b.indices.capacity := by
      rw [hni']
      exact Nat.mod_lt _ hc0
    have hnile : b.indices.offsetToIndex b.indices.len ≤ b.data.length := by
      rcases hdisj with hlin | hfill
      · rw [hni', add_mod_char hs (by omega)]
        split <;> omega
      · omega
    have hb1d : (b.push v).1.data
        = if b.indices.offsetToIndex b.indices.len = b.data.length
          then b.data ++ [v]
          else b.data.set (b.indices.offsetToIndex b.indices.len) v := by
      simp [push]
    have hd'get : ∀ m : Nat, m ≠ b.indices.offsetToIndex b.indices.len →
        (b.push v).1.data[m]? = b.data[m]? := by
      intro m hm
      rw [hb1d]
      by_cases h : b.indices.offsetToIndex b.indices.len = b.data.length
      · rw [if_pos h]
        exact getElem?_snoc_ne _ _ (by omega)
      · rw [if_neg h]
        exact getElem?_set_ne' _ _ (fun h' => hm h'.symm)
    have hd'ni : (b.push v).1.data[b.indices.offsetToIndex b.indices.len]? = some v := by
      rw [hb1d]
      by_cases h : b.indices.offsetToIndex b.indices.len = b.data.length
      · rw [if_pos h, h]
        exact getElem?_snoc_self _ _
      · rw [if_neg h]
        exact getElem?_set_self' _ _ (by omega)
    have hd'len : (b.push v).1.data.length
        = if b.indices.offsetToIndex b.indices.len = b.data.length
          then b.data.length + 1 else b.data.length := by
      rw [hb1d]
      by_cases h : b.indices.offsetToIndex b.indices.len = b.data.length <;>
        simp [h]
    refine ⟨?_, hc', ?_, by rw [hb2, hmodel2]⟩
    · refine ⟨by omega, by rw [hc', h63]; omega, by rw [hs', hc']; omega,
        by rw [hl', hc']; omega, ?_, ?_⟩
      · rw [hd'len, hc']
        by_cases h : b.indices.offsetToIndex b.indices.len = b.data.length
        · rw [if_pos h]
          omega
        · rw [if_neg h]
          omega
      · rw [hd'len, hc', hs', hl']
        rcases hdisj with hlin | hfill
        · by_cases hsl : b.indices.start + b.indices.len < b.indices.capacity
          · have hval : b.indices.offsetToIndex b.indices.len
                = b.indices.start + b.indices.len := by
              rw [hni', Nat.mod_eq_of_lt hsl]
            by_cases h : b.indices.offsetToIndex b.indices.len = b.data.length
            · rw [if_pos h]
              left
              omega
            · rw [if_neg h]
              left
              omega
          · -- start + len = capacity: the vector was already completely filled
            have hfl : b.data.length = b.indices.capacity := by omega
            rw [if_neg (by omega)]
            exact Or.inr hfl
        · rw [if_neg (by omega)]
          exact Or.inr hfill
    · rw [hmodel1]
      apply List.ext_getElem?
      intro n
      rw [absOf_getElem?, hl']
      rcases Nat.lt_or_ge n (b.indices.len + 1) with hn | hn
      · rw [if_pos hn, List.getElem?_map]
        have key : (b.push v).1.nthElement n = (l ++ [v])[n]? := by
          unfold nthElement
          rw [indices_nthElement_eq (by rw [hc', h63]; omega) (by rw [hs', hc']; omega)
            (by omega) (by rw [hc']; omega)]
          rw [Option.some_bind, hs', hc']
          rcases Nat.lt_or_ge n b.indices.len with hnl | hnl
          · -- old elements keep their slots
            have hne2 : (b.indices.start + n) % b.indices.capacity
                ≠ b.indices.offsetToIndex b.indices.len := by
              rw [hni']
              intro h
              rcases slot_inj hs (by omega) (by omega) h with h1 | h1 | h1 <;> omega
            rw [hd'get _ hne2]
            have hold := hnth n
            unfold nthElement at hold
            rw [indices_nthElement_eq (by omega) hs hnl (by omega),
              Option.some_bind] at hold
            rw [hold, List.getElem?_append_left (by omega)]
          · -- position `len` is the freshly written element
            have hneq : n = b.indices.len := by omega
            have heq2 : (b.indices.start + n) % b.indices.capacity
                = b.indices.offsetToIndex b.indices.len := by
              rw [hni', hneq]
            rw [heq2, hd'ni, hneq, ← hlenl, getElem?_snoc_self]
        rw [key, List.getElem?_eq_getElem (by rw [List.length_append]; simp; omega)]
        rfl
      · rw [if_neg (by omega)]
        refine (List.getElem?_eq_none_iff.mpr ?_).symm
        rw [List.length_map, List.length_append]
        simp
        omega

end StableRingBuffer

/-- A list of options that are all `some` is the `map some` of its `reduceOption`. -/
theorem map_some_reduceOption {α : Type u} (L : List (Option α))
    (h : ∀ x ∈ L, x.isSome) : (L.reduceOption).map some = L := by
  induction L with
  | nil => rfl
  | cons x t ih =>
    rcases x with _ | a
    · have := h none (by simp)
      simp at this
    · rw [List.reduceOption_cons_of_some, List.map_cons, ih (fun y hy => h y (by simp [hy]))]

namespace StableRingBuffer

variable {T : Type}

/-- In a well-formed buffer, every in-range `nth_element` returns a value. -/
theorem nthElement_isSome {b : StableRingBuffer T} (hwf : Wf b)
    {n : Nat} (hn : n < b.indices.len) : (b.nthElement n).isSome := by
  obtain ⟨hc0, hc63, hs, hlc, hdc, hdisj⟩ := hwf
  unfold nthElement
  rw [indices_nthElement_eq hc63 hs hn (by omega), Option.some_bind,
    List.getElem?_eq_getElem (slot_lt_of_wf ⟨hc0, hc63, hs, hlc, hdc, hdisj⟩ hn)]
  rfl

/-- Under well-formedness the logical contents are a `map some`. -/
theorem absOf_eq_map_some {b : StableRingBuffer T} (hwf : Wf b) :
    absOf b = ((absOf b).reduceOption).map some := by
  refine (map_some_reduceOption _ ?_).symm
  intro x hx
  unfold absOf at hx
  obtain ⟨i, hi, hix⟩ := List.exists_of_mem_map hx
  rw [List.mem_range] at hi
  rw [← hix]
  exact nthElement_isSome hwf hi

/-- `push` on a non-full well-formed buffer: no eviction, `len` grows by one. -/
theorem push_not_full {b : StableRingBuffer T} (hwf : Wf b)
    (hnf : b.indices.len < b.indices.capacity) (v : T) :
    (b.push v).2 = none ∧ (b.push v).1.indices.len = b.indices.len + 1 := by
  have h63 : (2:ℕ) ^ 63 = 9223372036854775808 := by norm_num
  have hU : U64 = 18446744073709551616 := by norm_num [U64]
  obtain ⟨hc0, hc63, hs, hlc, hdc, hdisj⟩ := hwf
  rw [h63] at hc63
  have hne : ¬ b.indices.len = b.indices.capacity := by omega
  constructor
  · simp [push, hne]
  · have : (b.push v).1.indices = b.indices.increaseLen 1 := by simp [push, hne]
    rw [this]
    unfold StableRingBufferIndices.increaseLen
    simp only
    rw [mod_u64_eq (by omega)]
    omega

/-- `push` on a full well-formed buffer: overwrite the physical slot `start`,
advance `start` by one modulo `capacity`, return the oldest element. -/
theorem push_full {b : StableRingBuffer T} (hwf : Wf b)
    (hf : b.indices.len = b.indices.capacity) (v : T) :
    (b.push v).1.data = b.data.set b.indices.start v ∧
    (b.push v).1.indices.start = (b.indices.start + 1) % b.indices.capacity ∧
    (b.push v).2 = b.nthElement 0 ∧ (b.nthElement 0).isSome := by
  have h63 : (2:ℕ) ^ 63 = 9223372036854775808 := by norm_num
  have hU : U64 = 18446744073709551616 := by norm_num [U64]
  obtain ⟨hc0, hc63, hs, hlc, hdc, hdisj⟩ := hwf
  rw [h63] at hc63
  have hdl : b.data.length = b.indices.capacity := by
    rcases hdisj with h | h
    · omega
    · exact h
  have hnis : b.indices.offsetToIndex b.indices.capacity = b.indices.start := by
    unfold StableRingBufferIndices.offsetToIndex
    rw [mod_u64_eq (by omega), add_mod_char hs (Nat.le_refl _)]
    split <;> omega
  have hne : ¬ b.indices.start = b.data.length := by omega
  have h0 : b.nthElement 0 = b.data[b.indices.start]? := by
    unfold nthElement
    rw [indices_nthElement_eq (by omega) hs (by omega) (by omega),
      Option.some_bind, Nat.add_zero, Nat.mod_eq_of_lt hs]
  refine ⟨by simp [push, hf, hnis, hne], ?_, by simp [push, hf, hnis, h0], ?_⟩
  · have : (b.push v).1.indices = b.indices.increaseStart 1 := by simp [push, hf]
    rw [this]
    unfold StableRingBufferIndices.increaseStart StableRingBufferIndices.offsetToIndex
    simp only
    rw [mod_u64_eq (by omega)]
  · rw [h0, List.getElem?_eq_getElem (by omega)]
    rfl

/-- Pushing a whole list refines the pure FIFO model step by step. -/
theorem pushAll_refines {b : StableRingBuffer T} {l : List T} (hwf : Wf b)
    (habs : absOf b = l.map some) (xs : List T) :
    Wf (b.pushAll xs).1 ∧
    (b.pushAll xs).1.indices.capacity = b.indices.capacity ∧
    absOf (b.pushAll xs).1 = ((fifoPushAll b.indices.capacity l xs).1).map some ∧
    (b.pushAll xs).2 = (fifoPushAll b.indices.capacity l xs).2 := by
  induction xs generalizing b l with
  | nil => exact ⟨hwf, rfl, habs, rfl⟩
  | cons x xs ih =>
    obtain ⟨hwf', hcap', habs', hret'⟩ := push_refines hwf habs x
    obtain ⟨ih1, ih2, ih3, ih4⟩ := ih hwf' habs'
    rw [hcap'] at ih2 ih3 ih4
    refine ⟨ih1, ih2, ?_, ?_⟩
    · show absOf ((b.push x).1.pushAll xs).1 = _
      rw [ih3]
      show _ = ((fifoPushAll b.indices.capacity (fifoPush b.indices.capacity l x).1 xs).1).map some
      rfl
    · show (b.push x).2 :: ((b.push x).1.pushAll xs).2 = _
      rw [ih4, hret']
      rfl

end StableRingBuffer

/-- Closed form for the pure FIFO model: after pushing `xs` onto `l`
(`|l| ≤ C`), the contents are the last `C` elements of `l ++ xs` and the
`j`-th push returns the evicted element of `l ++ xs`, if any. -/
theorem fifoPushAll_spec {T : Type} (C : Nat) (hC : 0 < C) (xs : List T) :
    ∀ l : List T, l.length ≤ C →
    (fifoPushAll C l xs).1 = (l ++ xs).drop (l.length + xs.length - C) ∧
    (fifoPushAll C l xs).2 = (List.range xs.length).map
      (fun j => if l.length + j < C then none else (l ++ xs)[l.length + j - C]?) := by
  induction xs with
  | nil =>
    intro l hl
    constructor
    · rw [List.append_nil, List.length_nil, Nat.add_zero, Nat.sub_eq_zero_of_le hl,
        List.drop_zero]
      rfl
    · rfl
  | cons x xs ih =>
    intro l hl
    by_cases hfull : l.length = C
    · rcases l with _ | ⟨a, t⟩
      · simp at hfull
        omega
      · have hp : fifoPush C (a :: t) x = (t ++ [x], some a) := by
          unfold fifoPush
          rw [if_pos hfull]
          rfl
        have hfull' : t.length + 1 = C := by simpa using hfull
        have hlen' : (t ++ [x]).length = C := by
          rw [List.length_append]
          simpa using hfull'
        obtain ⟨ihA, ihB⟩ := ih (t ++ [x]) (by omega)
        constructor
        · show (fifoPushAll C (fifoPush C (a :: t) x).1 xs).1 = _
          rw [hp, ihA, hlen', List.append_assoc, List.singleton_append]
          show (t ++ x :: xs).drop (C + xs.length - C)
              = (a :: (t ++ x :: xs)).drop ((a :: t).length + (x :: xs).length - C)
          rw [show C + xs.length - C = xs.length by omega]
          have : (a :: t).length + (x :: xs).length - C = xs.length + 1 := by
            rw [List.length_cons, List.length_cons]
            omega
          rw [this, List.drop_succ_cons]
        · show (fifoPush C (a :: t) x).2
              :: (fifoPushAll C (fifoPush C (a :: t) x).1 xs).2 = _
          rw [hp, ihB, hlen', List.length_cons, List.length_cons, List.range_succ_eq_map,
            List.map_cons, List.map_map]
          congr 1
          · rw [if_neg (by omega), show t.length + 1 + 0 - C = 0 by omega]
            simp
          · apply List.map_congr_left
            intro j hj
            simp only [Function.comp]
            rw [if_neg (by omega), if_neg (by omega)]
            rw [List.append_assoc, List.singleton_append,
              show C + j - C = j by omega]
            have : t.length + 1 + Nat.succ j - C = j + 1 := by omega
            rw [this, List.cons_append, List.getElem?_cons_succ]
    · have hp : fifoPush C l x = (l ++ [x], none) := by
        unfold fifoPush
        rw [if_neg hfull]
      have hlen' : (l ++ [x]).length = l.length + 1 := by
        rw [List.length_append]
        simp
      obtain ⟨ihA, ihB⟩ := ih (l ++ [x]) (by omega)
      constructor
      · show (fifoPushAll C (fifoPush C l x).1 xs).1 = _
        rw [hp, ihA, hlen', List.append_assoc, List.singleton_append]
        congr 1
        rw [List.length_cons]
        omega
      · show (fifoPush C l x).2 :: (fifoPushAll C (fifoPush C l x).1 xs).2 = _
        rw [hp, ihB, hlen', List.length_cons, List.range_succ_eq_map, List.map_cons,
          List.map_map]
        congr 1
        · rw [if_pos (by omega)]
        · apply List.map_congr_left
          intro j hj
          simp only [Function.comp]
          rw [List.append_assoc, List.singleton_append]
          by_cases hc : l.length + 1 + j < C
          · rw [if_pos hc, if_pos (by omega)]
          · rw [if_neg hc, if_neg (by omega),
              show l.length + Nat.succ j - C = l.length + 1 + j - C by omega]

/-- A list whose entries are all `none` reduces to the empty list. -/
theorem reduceOption_all_none {α : Type u} (L : List (Option α))
    (h : ∀ x ∈ L, x = none) : L.reduceOption = [] := by
  induction L with
  | nil => rfl
  | cons x t ih =>
    have hx := h x (by simp)
    subst hx
    exact ih (fun y hy => h y (by simp [hy]))

theorem reduceOption_map_some' {α : Type u} (l : List α) :
    (l.map some).reduceOption = l := by
  induction l with
  | nil => rfl
  | cons a t ih => rw [List.map_cons, List.reduceOption_cons_of_some, ih]

/-- Claim C1: Ring Buffer `push` is FIFO with eviction.  On any well-formed
buffer, a push below capacity returns `None` and increases `len` by one; a
push at capacity overwrites the physical slot `start`, advances `start` by
one modulo `capacity`, and returns the evicted oldest value.  Consequently
pushing `C + k` elements (`k ≥ 1`) into an empty buffer of capacity `C`
leaves exactly the last `C` pushed elements in push order, and the
`Some`-returns are exactly the first `k` pushed elements in order. -/
theorem c1_ringbuffer_push_fifo {T : Type} (b : StableRingBuffer T) (v : T)
    (hwf : StableRingBuffer.Wf b) (C k : Nat) (xs : List T)
    (hC : 0 < C) (hC63 : C ≤ 2 ^ 63) (hk : 1 ≤ k) (hxs : xs.length = C + k) :
    (b.indices.len < b.indices.capacity →
      (b.push v).2 = none ∧ (b.push v).1.indices.len = b.indices.len + 1) ∧
    (b.indices.len = b.indices.capacity →
      (b.push v).1.data = b.data.set b.indices.start v ∧
      (b.push v).1.indices.start = (b.indices.start + 1) % b.indices.capacity ∧
      (b.push v).2 = b.nthElement 0 ∧ (b.nthElement 0).isSome) ∧
    StableRingBuffer.absOf ((StableRingBuffer.new T C).pushAll xs).1
      = (xs.drop k).map some ∧
    (((StableRingBuffer.new T C).pushAll xs).2).reduceOption = xs.take k := by
  have hwf0 : StableRingBuffer.Wf (StableRingBuffer.new T C) := by
    refine ⟨hC, hC63, hC, ?_, ?_, Or.inl ?_⟩ <;>
      simp [StableRingBuffer.new, StableRingBufferIndices.new]
  have habs0 : StableRingBuffer.absOf (StableRingBuffer.new T C)
      = ([] : List T).map some := by
    simp [StableRingBuffer.absOf, StableRingBuffer.new, StableRingBufferIndices.new]
  obtain ⟨_, _, hcont, hret⟩ := StableRingBuffer.pushAll_refines hwf0 habs0 xs
  have hcapnew : (StableRingBuffer.new T C).indices.capacity = C := rfl
  rw [hcapnew] at hcont hret
  obtain ⟨hm1, hm2⟩ := fifoPushAll_spec C hC xs [] (by simp)
  rw [hm1] at hcont
  rw [hm2] at hret
  simp only [List.nil_append, List.length_nil, Nat.zero_add] at hcont hret
  refine ⟨fun h => StableRingBuffer.push_not_full hwf h v,
    fun h => StableRingBuffer.push_full hwf h v, ?_, ?_⟩
  · rw [hcont, hxs, show C + k - C = k by omega]
  · rw [hret, hxs, List.range_add, List.map_append, List.reduceOption_append]
    have h1 : ((List.range C).map
        (fun j => if j < C then none else xs[j - C]?)).reduceOption = [] := by
      apply reduceOption_all_none
      intro x hx
      obtain ⟨j, hj, hja⟩ := List.exists_of_mem_map hx
      rw [List.mem_range] at hj
      rw [← hja, if_pos hj]
    have h2 : ((List.range k).map (fun x => C + x)).map
        (fun j => if j < C then none else xs[j - C]?) = (xs.take k).map some := by
      rw [List.map_map]
      apply List.ext_getElem?
      intro n
      rw [List.getElem?_map, List.getElem?_map]
      rcases Nat.lt_or_ge n k with hn | hn
      · rw [List.getElem?_range hn]
        simp only [Option.map_some', Function.comp_apply]
        rw [if_neg (by omega), show C + n - C = n by omega, List.getElem?_take,
          if_pos hn, List.getElem?_eq_getElem (by omega)]
        rfl
      · rw [List.getElem?_eq_none_iff.mpr (by simp; omega),
          List.getElem?_eq_none_iff.mpr (by simp; omega)]
        rfl
    rw [h1, h2, reduceOption_map_some', List.nil_append]

namespace StableRingBuffer

variable {T : Type}

/-- In range, `nth_element_from_end(n)` is `nth_element(len - 1 - n)`. -/
theorem nthElementFromEnd_eq_nthElement {b : StableRingBuffer T}
    (hc63 : b.indices.capacity ≤ 2 ^ 63) (hlc : b.indices.len ≤ b.indices.capacity)
    {n : Nat} (hn : n < b.indices.len) :
    b.nthElementFromEnd n = b.nthElement (b.indices.len - 1 - n) := by
  have h63 : (2:ℕ) ^ 63 = 9223372036854775808 := by norm_num
  have hU : U64 = 18446744073709551616 := by norm_num [U64]
  rw [h63] at hc63
  unfold nthElementFromEnd nthElement StableRingBufferIndices.nthElementFromEnd checkedSub
  rw [mod_u64_eq (by omega), if_pos (by omega), Option.some_bind,
    show b.indices.len - (n + 1) = b.indices.len - 1 - n by omega]

/-- Out of range (`len ≤ n < 2^64`), `nth_element_from_end(n)` is `none`. -/
theorem nthElementFromEnd_of_ge {b : StableRingBuffer T}
    {n : Nat} (hge : b.indices.len ≤ n) (hn : n < U64) :
    b.nthElementFromEnd n = none := by
  have hU : U64 = 18446744073709551616 := by norm_num [U64]
  unfold nthElementFromEnd StableRingBufferIndices.nthElementFromEnd checkedSub
  by_cases h1 : n + 1 < U64
  · rw [mod_u64_eq h1, if_neg (by omega)]
    rfl
  · have : n + 1 = U64 := by omega
    rw [this, Nat.mod_self, if_pos (by omega), Option.some_bind, Nat.sub_zero]
    rw [StableRingBufferIndices.nthElement, if_neg (by omega)]
    rfl

end StableRingBuffer

/-- Claim C5: `truncate(n)` on a buffer of logical length `L` produces
length `L - n` (saturating), leaves `start`, `capacity` and the backing
vector untouched, keeps the first `L - n` elements unchanged, and a
subsequent `push` onto a slot freed by truncation (`n ≥ 1`) returns
`None`, not the stale value physically present in that slot. -/
theorem c5_ringbuffer_truncate {T : Type} (b : StableRingBuffer T) (n : Nat) :
    (b.truncate n).indices.len = b.indices.len - n ∧
    (b.truncate n).indices.start = b.indices.start ∧
    (b.truncate n).indices.capacity = b.indices.capacity ∧
    (b.truncate n).data = b.data ∧
    (∀ i, i < b.indices.len - n → (b.truncate n).nthElement i = b.nthElement i) ∧
    (StableRingBuffer.Wf b → 1 ≤ n → ∀ v, ((b.truncate n).push v).2 = none) := by
  refine ⟨rfl, rfl, rfl, rfl, ?_, ?_⟩
  · intro i hi
    unfold StableRingBuffer.nthElement StableRingBufferIndices.nthElement
    show (if i < b.indices.len - n then _ else none).bind _ = _
    rw [if_pos hi, if_pos (by omega)]
    rfl
  · intro hwf hn v
    obtain ⟨hc0, hc63, hs, hlc, hdc, hdisj⟩ := hwf
    have hwf' : StableRingBuffer.Wf (b.truncate n) := by
      refine ⟨hc0, hc63, hs, ?_, hdc, ?_⟩
      · show b.indices.len - n ≤ b.indices.capacity
        omega
      · rcases hdisj with h | h
        · exact Or.inl (show b.indices.start + (b.indices.len - n) ≤ b.data.length by omega)
        · exact Or.inr h
    have hlt : (b.truncate n).indices.len < (b.truncate n).indices.capacity := by
      show b.indices.len - n < b.indices.capacity
      omega
    exact (StableRingBuffer.push_not_full hwf' hlt v).1

/-- Witness for C5: truncating a full capacity-3 buffer by 2 and pushing. -/
theorem c5_ringbuffer_truncate_witness :
    ((⟨[1, 2, 3], ⟨0, 3, 3⟩⟩ : StableRingBuffer Nat).truncate 2).indices.len = 1 ∧
    (((⟨[1, 2, 3], ⟨0, 3, 3⟩⟩ : StableRingBuffer Nat).truncate 2).push 9).2 = none := by
  have h := c5_ringbuffer_truncate (⟨[1, 2, 3], ⟨0, 3, 3⟩⟩ : StableRingBuffer Nat) 2
  exact ⟨h.1, h.2.2.2.2.2 (by refine ⟨?_, ?_, ?_, ?_, ?_, Or.inl ?_⟩ <;> decide)
    (by decide) 9⟩

/-- `filterMap` over a list of always-successful reads acts pointwise. -/
theorem filterMap_getElem?_bind {α : Type u} {β : Type v} (l : List α) (f : α → Option β)
    (h : ∀ x ∈ l, (f x).isSome) : ∀ n : Nat, (l.filterMap f)[n]? = l[n]?.bind f := by
  induction l with
  | nil => intro n; simp
  | cons a t ih =>
    intro n
    obtain ⟨w, hw⟩ := Option.isSome_iff_exists.mp (h a (by simp))
    simp only [List.filterMap_cons, hw]
    cases n with
    | zero => simp [hw]
    | succ n =>
      simp only [List.getElem?_cons_succ]
      exact ih (fun x hx => h x (by simp [hx])) n

/-- Claim C3: `resize(new_capacity)` is a no-op when the capacity is
unchanged; otherwise it resets the index record to
`start = 0, len = min(len, new_capacity), capacity = new_capacity` and
keeps exactly the most recent `min(len, new_capacity)` elements in their
original relative order. -/
theorem c3_ringbuffer_resize {T : Type} (b : StableRingBuffer T) (c : Nat)
    (hwf : StableRingBuffer.Wf b) (hc : 0 < c) :
    (c = b.indices.capacity → b.resize c = b) ∧
    (c ≠ b.indices.capacity →
      (b.resize c).indices.start = 0 ∧
      (b.resize c).indices.len = min b.indices.len c ∧
      (b.resize c).indices.capacity = c ∧
      StableRingBuffer.absOf (b.resize c)
        = (StableRingBuffer.absOf b).drop (b.indices.len - min b.indices.len c)) := by
  have h63 : (2:ℕ) ^ 63 = 9223372036854775808 := by norm_num
  have hU : U64 = 18446744073709551616 := by norm_num [U64]
  obtain ⟨hc0, hc63, hs, hlc, hdc, hdisj⟩ := hwf
  rw [h63] at hc63
  constructor
  · intro h
    unfold StableRingBuffer.resize
    rw [if_pos h]
  · intro h
    have hkl : min b.indices.len c ≤ b.indices.len := Nat.min_le_left _ _
    have hkc : min b.indices.len c ≤ c := Nat.min_le_right _ _
    have hidx : (b.resize c).indices = ⟨0, min b.indices.len c, c⟩ := by
      unfold StableRingBuffer.resize
      rw [if_neg h]
      show (StableRingBufferIndices.new c).increaseLen (min b.indices.len c) = _
      unfold StableRingBufferIndices.increaseLen StableRingBufferIndices.new
      simp only
      rw [Nat.zero_add, mod_u64_eq (by omega), Nat.min_eq_left hkc]
    have hdata : (b.resize c).data = ((List.range (min b.indices.len c)).reverse).filterMap
        (fun off => b.nthElementFromEnd off) := by
      unfold StableRingBuffer.resize
      rw [if_neg h]
    have hsm : ∀ x ∈ (List.range (min b.indices.len c)).reverse,
        (b.nthElementFromEnd x).isSome := by
      intro x hx
      rw [List.mem_reverse, List.mem_range] at hx
      rw [StableRingBuffer.nthElementFromEnd_eq_nthElement (by omega) hlc (by omega)]
      exact StableRingBuffer.nthElement_isSome
        ⟨hc0, by omega, hs, hlc, hdc, hdisj⟩ (by omega)
    have hget : ∀ i, (b.resize c).data[i]? =
        if i < min b.indices.len c
        then b.nthElement (b.indices.len - min b.indices.len c + i) else none := by
      intro i
      rw [hdata, filterMap_getElem?_bind _ _ hsm i]
      rcases Nat.lt_or_ge i (min b.indices.len c) with hi | hi
      · rw [if_pos hi, List.getElem?_reverse (by rw [List.length_range]; omega),
          List.length_range, List.getElem?_range (by omega), Option.some_bind,
          StableRingBuffer.nthElementFromEnd_eq_nthElement (by omega) hlc (by omega),
          show b.indices.len - 1 - (min b.indices.len c - 1 - i)
            = b.indices.len - min b.indices.len c + i by omega]
      · rw [if_neg (by omega),
          List.getElem?_eq_none_iff.mpr (by rw [List.length_reverse, List.length_range]; omega)]
        rfl
    refine ⟨by rw [hidx], by rw [hidx], by rw [hidx], ?_⟩
    apply List.ext_getElem?
    intro i
    rw [StableRingBuffer.absOf_getElem?, List.getElem?_drop,
      StableRingBuffer.absOf_getElem?, hidx]
    show (if i < min b.indices.len c then some ((b.resize c).nthElement i) else none) = _
    rcases Nat.lt_or_ge i (min b.indices.len c) with hi | hi
    · rw [if_pos hi, if_pos (by omega)]
      have hstep : (b.resize c).nthElement i
          = b.nthElement (b.indices.len - min b.indices.len c + i) := by
        unfold StableRingBuffer.nthElement
        rw [hidx]
        show ((if i < min b.indices.len c then some ((0 + i) % U64 % c) else none).bind
          fun j => (b.resize c).data[j]?) = _
        rw [if_pos hi, Nat.zero_add, mod_u64_eq (by omega),
          Nat.mod_eq_of_lt (by omega), Option.some_bind, hget i, if_pos hi]
        rfl
      rw [hstep]
    · rw [if_neg (by omega), if_neg (by omega)]

/-- Witness for C3: shrinking a full capacity-3 buffer to capacity 2. -/
theorem c3_ringbuffer_resize_witness :
    StableRingBuffer.absOf ((⟨[1, 2, 3], ⟨0, 3, 3⟩⟩ : StableRingBuffer Nat).resize 2)
      = [some 2, some 3] ∧
    ((⟨[1, 2, 3], ⟨0, 3, 3⟩⟩ : StableRingBuffer Nat).resize 3)
      = (⟨[1, 2, 3], ⟨0, 3, 3⟩⟩ : StableRingBuffer Nat) := by
  have hwf : StableRingBuffer.Wf (⟨[1, 2, 3], ⟨0, 3, 3⟩⟩ : StableRingBuffer Nat) := by
    refine ⟨?_, ?_, ?_, ?_, ?_, Or.inr ?_⟩ <;> decide
  have h2 := c3_ringbuffer_resize (⟨[1, 2, 3], ⟨0, 3, 3⟩⟩ : StableRingBuffer Nat) 2
    hwf (by decide)
  have h3 := c3_ringbuffer_resize (⟨[1, 2, 3], ⟨0, 3, 3⟩⟩ : StableRingBuffer Nat) 3
    hwf (by decide)
  refine ⟨?_, h3.1 (by decide)⟩
  rw [(h2.2 (by decide)).2.2.2]
  decide

/-- Claim C9: out-of-range lookup is absence, never an error.  For every
well-formed buffer state and every `u64` argument `n`, `nth_element(n)`
and `nth_element_from_end(n)` return `None` when `n ≥ len`; when
`n < len`, `nth_element(n)` reads the slot `(start + n) % capacity`, the
result is present, and `nth_element_from_end(n)` is the element at logical
position `len - 1 - n`. -/
theorem c9_ringbuffer_nth_absence {T : Type} (b : StableRingBuffer T)
    (hwf : StableRingBuffer.Wf b) (n : Nat) (hn : n < U64) :
    (b.indices.len ≤ n →
      b.nthElement n = none ∧ b.nthElementFromEnd n = none) ∧
    (n < b.indices.len →
      b.nthElement n = b.data[(b.indices.start + n) % b.indices.capacity]? ∧
      (b.nthElement n).isSome ∧
      b.nthElementFromEnd n = b.nthElement (b.indices.len - 1 - n)) := by
  obtain ⟨hc0, hc63, hs, hlc, hdc, hdisj⟩ := hwf
  constructor
  · intro hge
    exact ⟨StableRingBuffer.nthElement_of_ge b hge,
      StableRingBuffer.nthElementFromEnd_of_ge hge hn⟩
  · intro hlt
    refine ⟨?_, StableRingBuffer.nthElement_isSome ⟨hc0, hc63, hs, hlc, hdc, hdisj⟩ hlt,
      StableRingBuffer.nthElementFromEnd_eq_nthElement hc63 hlc hlt⟩
    unfold StableRingBuffer.nthElement
    rw [StableRingBuffer.indices_nthElement_eq hc63 hs hlt (by omega), Option.some_bind]

/-- Witness for C9 on a wrapped two-element buffer. -/
theorem c9_ringbuffer_nth_absence_witness :
    ((⟨[5, 6], ⟨1, 2, 2⟩⟩ : StableRingBuffer Nat).nthElement 7 = none) ∧
    ((⟨[5, 6], ⟨1, 2, 2⟩⟩ : StableRingBuffer Nat).nthElementFromEnd 7 = none) ∧
    ((⟨[5, 6], ⟨1, 2, 2⟩⟩ : StableRingBuffer Nat).nthElementFromEnd 0
      = (⟨[5, 6], ⟨1, 2, 2⟩⟩ : StableRingBuffer Nat).nthElement 1) := by
  have hwf : StableRingBuffer.Wf (⟨[5, 6], ⟨1, 2, 2⟩⟩ : StableRingBuffer Nat) := by
    refine ⟨?_, ?_, ?_, ?_, ?_, Or.inr ?_⟩ <;> decide
  have h1 := c9_ringbuffer_nth_absence (⟨[5, 6], ⟨1, 2, 2⟩⟩ : StableRingBuffer Nat)
    hwf 7 (by decide)
  have h2 := c9_ringbuffer_nth_absence (⟨[5, 6], ⟨1, 2, 2⟩⟩ : StableRingBuffer Nat)
    hwf 0 (by decide)
  exact ⟨(h1.1 (by decide)).1, (h1.1 (by decide)).2, (h2.2 (by decide)).2.2⟩

/-! ## Index-record byte codec — `ringbuffer/mod.rs` lines 84-115

Bytes are modelled as `Nat` values below 256.  `u64::to_le_bytes`
produces the eight base-256 digits, least significant first. -/

/-- `u64::to_le_bytes`: eight little-endian base-256 digits. -/
def toLeBytes8 (x : Nat) : List Nat :=
  (List.range 8).map (fun i => x / 256 ^ i % 256)

/-- `u64::from_le_bytes` on a digit list, least significant first. -/
def fromLeBytes (bs : List Nat) : Nat :=
  bs.foldr (fun b acc => acc * 256 + b) 0

/-- Rust slice indexing `bytes[lo..hi]`: panics (`none`) unless the upper
bound is within the buffer. -/
def byteSlice (bs : List Nat) (lo hi : Nat) : Option (List Nat) :=
  if hi ≤ bs.length then some ((bs.drop lo).take (hi - lo)) else none

namespace StableRingBufferIndices

/-- `Storable::to_bytes`: `start`, `len`, `capacity` as three 8-byte
little-endian integers. -/
def toBytes (i : StableRingBufferIndices) : List Nat :=
  toLeBytes8 i.start ++ toLeBytes8 i.len ++ toLeBytes8 i.capacity

/-- `Storable::from_bytes`: read `bytes[..8]`, `bytes[8..16]`,
`bytes[16..24]` (each slice panicking — `none` — when the buffer is too
short; the `try_into` conversions always succeed on an 8-byte slice). -/
def fromBytes (bs : List Nat) : Option StableRingBufferIndices :=
  (byteSlice bs 0 8).bind fun s =>
    (byteSlice bs 8 16).bind fun l =>
      (byteSlice bs 16 24).map fun c =>
        ⟨fromLeBytes s, fromLeBytes l, fromLeBytes c⟩

end StableRingBufferIndices

theorem fromLeBytes_digits (j : Nat) : ∀ x : Nat,
    fromLeBytes ((List.range j).map (fun i => x / 256 ^ i % 256)) = x % 256 ^ j := by
  induction j with
  | zero => intro x; simp [fromLeBytes, Nat.mod_one]
  | succ j ih =>
    intro x
    rw [List.range_succ_eq_map, List.map_cons, List.map_map]
    show fromLeBytes ((x / 256 ^ 0 % 256) :: _) = _
    unfold fromLeBytes
    rw [List.foldr_cons]
    have hmap : (List.range j).map ((fun i => x / 256 ^ i % 256) ∘ Nat.succ)
        = (List.range j).map (fun i => (x / 256) / 256 ^ i % 256) := by
      apply List.map_congr_left
      intro a _
      simp only [Function.comp_apply]
      rw [Nat.div_div_eq_div_mul, ← Nat.pow_succ']
    rw [hmap]
    have hrec := ih (x / 256)
    unfold fromLeBytes at hrec
    rw [hrec, Nat.pow_succ', Nat.mod_mul]
    simp only [pow_zero, Nat.div_one]
    omega

theorem toLeBytes8_length (x : Nat) : (toLeBytes8 x).length = 8 := by
  simp [toLeBytes8]

theorem fromLeBytes_toLeBytes8 {x : Nat} (h : x < 2 ^ 64) :
    fromLeBytes (toLeBytes8 x) = x := by
  unfold toLeBytes8
  rw [fromLeBytes_digits 8 x, Nat.mod_eq_of_lt (by norm_num at h ⊢; omega)]

/-- Counterexample to claim C8: `from_bytes` does not panic on every input
whose length differs from 24 — a 25-byte input is decoded from its first
24 bytes. -/
theorem c8_indices_codec_counterexample :
    (List.replicate 25 0).length ≠ 24 ∧
    StableRingBufferIndices.fromBytes (List.replicate 25 0)
      = some ⟨0, 0, 0⟩ := by
  constructor
  · decide
  · decide

/-- Claim C8 (amended): `to_bytes` always produces exactly 24 bytes (three
8-byte little-endian integers), `from_bytes ∘ to_bytes` is the identity on
index records, and `from_bytes` panics exactly on inputs shorter than 24
bytes — longer inputs are decoded from their first 24 bytes. -/
theorem c8_indices_codec_amended :
    (∀ i : StableRingBufferIndices, (i.toBytes).length = 24) ∧
    (∀ i : StableRingBufferIndices,
      i.start < 2 ^ 64 → i.len < 2 ^ 64 → i.capacity < 2 ^ 64 →
      StableRingBufferIndices.fromBytes i.toBytes = some i) ∧
    (∀ bs : List Nat,
      StableRingBufferIndices.fromBytes bs = none ↔ bs.length < 24) ∧
    (∀ bs : List Nat, 24 ≤ bs.length →
      StableRingBufferIndices.fromBytes bs
        = StableRingBufferIndices.fromBytes (bs.take 24)) := by
  have hlen : ∀ i : StableRingBufferIndices, (i.toBytes).length = 24 := by
    intro i
    unfold StableRingBufferIndices.toBytes
    rw [List.length_append, List.length_append, toLeBytes8_length, toLeBytes8_length,
      toLeBytes8_length]
  refine ⟨hlen, ?_, ?_, ?_⟩
  · intro i h1 h2 h3
    have hA : (toLeBytes8 i.start).length = 8 := toLeBytes8_length _
    have hB : (toLeBytes8 i.len).length = 8 := toLeBytes8_length _
    have hC : (toLeBytes8 i.capacity).length = 8 := toLeBytes8_length _
    have hs1 : byteSlice i.toBytes 0 8 = some (toLeBytes8 i.start) := by
      unfold byteSlice
      rw [if_pos (by rw [hlen i]; omega), List.drop_zero, Nat.sub_zero]
      unfold StableRingBufferIndices.toBytes
      rw [List.append_assoc,
        show (8:Nat) = (toLeBytes8 i.start).length from hA.symm, List.take_left]
    have hs2 : byteSlice i.toBytes 8 16 = some (toLeBytes8 i.len) := by
      unfold byteSlice
      rw [if_pos (by rw [hlen i]; omega)]
      unfold StableRingBufferIndices.toBytes
      rw [List.append_assoc,
        show (8:Nat) = (toLeBytes8 i.start).length from hA.symm, List.drop_left,
        show 16 - (toLeBytes8 i.start).length = (toLeBytes8 i.len).length by
          rw [hA, hB],
        List.take_left]
    have hs3 : byteSlice i.toBytes 16 24 = some (toLeBytes8 i.capacity) := by
      unfold byteSlice
      rw [if_pos (by rw [hlen i])]
      unfold StableRingBufferIndices.toBytes
      rw [show (16:Nat) = (toLeBytes8 i.start ++ toLeBytes8 i.len).length by
          rw [List.length_append, hA, hB],
        List.drop_left,
        show 24 - (toLeBytes8 i.start ++ toLeBytes8 i.len).length
            = (toLeBytes8 i.capacity).length by
          rw [List.length_append, hA, hB, hC],
        List.take_length]
    unfold StableRingBufferIndices.fromBytes
    rw [hs1, hs2, hs3]
    simp only [Option.some_bind, Option.map_some']
    rw [fromLeBytes_toLeBytes8 h1, fromLeBytes_toLeBytes8 h2, fromLeBytes_toLeBytes8 h3]
  · intro bs
    unfold StableRingBufferIndices.fromBytes byteSlice
    by_cases h24 : 24 ≤ bs.length
    · rw [if_pos (by omega), if_pos (by omega), if_pos h24]
      simp only [Option.some_bind, Option.map_some']
      constructor
      · intro hc
        cases hc
      · intro hc
        omega
    · by_cases h8 : 8 ≤ bs.length
      · by_cases h16 : 16 ≤ bs.length
        · rw [if_pos h8, if_pos h16, if_neg (by omega)]
          simp only [Option.some_bind, Option.map_none']
          constructor
          · intro _
            omega
          · intro _
            trivial
        · rw [if_pos h8, if_neg h16]
          simp only [Option.some_bind, Option.none_bind]
          constructor
          · intro _
            omega
          · intro _
            trivial
      · rw [if_neg h8]
        simp only [Option.none_bind]
        constructor
        · intro _
          omega
        · intro _
          trivial
  · intro bs h24
    have hsl : ∀ lo hi : Nat, hi ≤ 24 →
        ((bs.take 24).drop lo).take (hi - lo) = (bs.drop lo).take (hi - lo) := by
      intro lo hi hhi
      rw [List.drop_take, List.take_take, inf_eq_left.mpr (by omega)]
    have ht : (bs.take 24).length = 24 := by
      rw [List.length_take]
      omega
    unfold StableRingBufferIndices.fromBytes byteSlice
    rw [if_pos (by omega), if_pos (by omega), if_pos h24, if_pos (by rw [ht]; omega),
      if_pos (by rw [ht]; omega), if_pos (by rw [ht]),
      hsl 0 8 (by omega), hsl 8 16 (by omega), hsl 16 24 (by omega)]

/-- Witness for C8 (amended) on the record `⟨1, 2, 3⟩` and a short input. -/
theorem c8_indices_codec_amended_witness :
    StableRingBufferIndices.fromBytes (StableRingBufferIndices.toBytes ⟨1, 2, 3⟩)
      = some ⟨1, 2, 3⟩ ∧
    StableRingBufferIndices.fromBytes [0, 0, 0] = none := by
  have h := c8_indices_codec_amended
  exact ⟨h.2.1 ⟨1, 2, 3⟩ (by decide) (by decide) (by decide),
    (h.2.2.1 [0, 0, 0]).mpr (by decide)⟩

/-! ## Codecs — `common/codec.rs` and `test_utils.rs`

The `Codec` / `RefCodec` traits map a stored representation `S` to a
canonical type `D`.  `DefaultCodec` is the no-op codec; `UserCodec` (from
`test_utils.rs`) migrates the versioned user record.  `Cow` results of
`decode_ref` are modelled by the owned value they dereference to. -/

namespace DefaultCodec

/-- `DefaultCodec::decode`: identity. -/
def decode {D : Type u} (source : D) : D := source

/-- `DefaultCodec::encode`: identity. -/
def encode {D : Type u} (dest : D) : D := dest

/-- `DefaultCodec::decode_ref`: borrows the source unchanged. -/
def decodeRef {D : Type u} (source : D) : D := source

end DefaultCodec

/-- `UserV1(pub String)` — legacy stored variant. -/
structure UserV1 where
  name : String
deriving DecidableEq

/-- `UserV2 { name, age }` — canonical shape; `age : Option<u8>`. -/
structure UserV2 where
  name : String
  age : Option Nat
deriving DecidableEq

/-- `VersionedUser`: the closed set of stored variants. -/
inductive VersionedUser where
  | V1 (user : UserV1)
  | V2 (user : UserV2)
deriving DecidableEq

namespace UserCodec

/-- `UserCodec::decode`: migrate `V1` (absent `age` becomes `None`),
pass `V2` through. -/
def decode : VersionedUser → UserV2
  | .V1 u => ⟨u.name, none⟩
  | .V2 u => u

/-- `UserCodec::encode`: always the newest variant. -/
def encode (dest : UserV2) : VersionedUser := .V2 dest

/-- `UserCodec::decode_ref` (the `Cow` collapsed to its value). -/
def decodeRef : VersionedUser → UserV2
  | .V1 u => ⟨u.name, none⟩
  | .V2 u => u

end UserCodec

/-- Claim C6: codec round-trip.  `decode (encode x) = x` for every codec
supplied by the library and every canonical value; the `DefaultCodec` is
the identity in both directions; the versioned `UserCodec` decodes any
legacy `V1` variant into a canonical value whose absent field takes its
default (`age = None`). -/
theorem c6_codec_roundtrip :
    (∀ (D : Type) (x : D),
      DefaultCodec.decode (DefaultCodec.encode x) = x ∧
      DefaultCodec.decode x = x ∧ DefaultCodec.encode x = x ∧
      DefaultCodec.decodeRef x = x) ∧
    (∀ u : UserV2, UserCodec.decode (UserCodec.encode u) = u) ∧
    (∀ s : String, UserCodec.decode (.V1 ⟨s⟩) = ⟨s, none⟩) ∧
    (∀ u : VersionedUser, UserCodec.decodeRef u = UserCodec.decode u) := by
  refine ⟨fun D x => ⟨rfl, rfl, rfl, rfl⟩, fun u => rfl, fun s => rfl, fun u => ?_⟩
  cases u <;> rfl

/-! ## Ordered iteration from the previous key -/

section IterFromPrevKey

variable {K : Type} [LinearOrder K] {V : Type}

instance : Std.Antisymm (fun x1 x2 : K => x1 ≤ x2) where
  antisymm h1 h2 := le_antisymm h1 h2

/-- Modelled from the spec: the implementation of `iter_from_prev_key`
lives in the `ic_stable_structures` dependency, not in this repository's
sources — only the trait documentation (`btreemap/mod.rs` lines 64-70)
and the delegations (lines 143-145, `cached.rs` lines 141-143) are
present.  Spec: "finds the largest key strictly less than `bound` and
starts iterating there (returns an empty iterator if no such key
exists)".  The ordered map is its ascending entry list; the returned
iterator is the list of entries from the found key on. -/
def iterFromPrevKey (entries : List (K × V)) (bound : K) : List (K × V) :=
  match ((entries.map Prod.fst).filter (fun k => k < bound)).max? with
  | none => []
  | some k0 => entries.filter (fun e => k0 ≤ e.1)

/-- On a strictly-sorted entry list, filtering `≥ e0.1` for a member `e0`
yields `e0` followed by the entries with strictly larger keys. -/
theorem filter_ge_eq_cons :
    ∀ (l : List (K × V)), l.Pairwise (fun x y => x.1 < y.1) →
    ∀ e0 ∈ l, l.filter (fun e => e0.1 ≤ e.1) = e0 :: l.filter (fun e => e0.1 < e.1) := by
  intro l
  induction l with
  | nil =>
    intro _ e0 he0
    simp at he0
  | cons a t ih =>
    intro hp e0 he0
    rw [List.pairwise_cons] at hp
    rcases List.mem_cons.mp he0 with rfl | hmem
    · simp only [List.filter_cons]
      rw [if_pos (by simp), if_neg (by simp)]
      congr 1
      apply List.filter_congr
      intro x hx
      have hax := hp.1 x hx
      simp [le_of_lt hax, hax]
    · have hlt : a.1 < e0.1 := hp.1 e0 hmem
      simp only [List.filter_cons]
      rw [if_neg (by simp [not_le.mpr hlt]), if_neg (by simp [asymm hlt])]
      exact ih hp.2 e0 hmem

end IterFromPrevKey

/-- Claim C7: `iter_from_prev_key(b)` starts at the largest key strictly
less than `b` and then proceeds in ascending key order over the remaining
entries (exactly those with keys `≥ b`), and yields the empty iterator
when no key strictly less than `b` exists. -/
theorem c7_iter_from_prev_key {K V : Type} [LinearOrder K]
    (entries : List (K × V)) (b : K)
    (hs : entries.Pairwise (fun x y => x.1 < y.1)) :
    ((∀ e ∈ entries, ¬ e.1 < b) → iterFromPrevKey entries b = []) ∧
    ((∃ e ∈ entries, e.1 < b) →
      ∃ k0, ((entries.map Prod.fst).filter (fun k => k < b)).max? = some k0 ∧
        k0 < b ∧ k0 ∈ entries.map Prod.fst ∧
        (∀ e ∈ entries, e.1 < b → e.1 ≤ k0) ∧
        (∃ v0, (k0, v0) ∈ entries ∧
          iterFromPrevKey entries b
            = (k0, v0) :: entries.filter (fun e => b ≤ e.1)) ∧
        (iterFromPrevKey entries b).Pairwise (fun x y => x.1 < y.1)) := by
  constructor
  · intro h
    unfold iterFromPrevKey
    have hnil : (entries.map Prod.fst).filter (fun k => k < b) = [] := by
      rw [List.filter_eq_nil_iff]
      intro k hk
      obtain ⟨e, he, rfl⟩ := List.exists_of_mem_map hk
      simpa using h e he
    rw [hnil]
    rfl
  · rintro ⟨e, he, heb⟩
    have hne : (entries.map Prod.fst).filter (fun k => k < b) ≠ [] := by
      intro hnil
      rw [List.filter_eq_nil_iff] at hnil
      exact hnil e.1 (List.mem_map_of_mem _ he) (by simpa using heb)
    obtain ⟨k0, hk0⟩ : ∃ k0,
        ((entries.map Prod.fst).filter (fun k => k < b)).max? = some k0 := by
      rcases hmax : ((entries.map Prod.fst).filter (fun k => k < b)).max? with _ | k0
      · rw [List.max?_eq_none_iff] at hmax
        exact absurd hmax hne
      · exact ⟨k0, rfl⟩
    obtain ⟨hk0mem, hk0max⟩ := (List.max?_eq_some_iff (fun x => le_refl x)
      (fun x y => max_choice x y) (fun _ _ _ => max_le_iff)).mp hk0
    rw [List.mem_filter] at hk0mem
    have hk0lt : k0 < b := by simpa using hk0mem.2
    obtain ⟨e0, he0, he0k⟩ := List.exists_of_mem_map hk0mem.1
    have hmaxall : ∀ e' ∈ entries, e'.1 < b → e'.1 ≤ k0 := by
      intro e' he' hlt
      exact hk0max e'.1 (by
        rw [List.mem_filter]
        exact ⟨List.mem_map_of_mem _ he', by simpa using hlt⟩)
    have hiter : iterFromPrevKey entries b = entries.filter (fun e => k0 ≤ e.1) := by
      unfold iterFromPrevKey
      rw [hk0]
    have hcons := filter_ge_eq_cons entries hs e0 he0
    rw [he0k] at hcons
    refine ⟨k0, hk0, hk0lt, hk0mem.1, hmaxall, ⟨e0.2, ?_, ?_⟩, ?_⟩
    · have : (k0, e0.2) = e0 := by
        rw [← he0k]
      rw [this]
      exact he0
    · rw [hiter, hcons]
      have : (k0, e0.2) = e0 := by
        rw [← he0k]
      rw [this]
      congr 1
      apply List.filter_congr
      intro x hx
      refine decide_eq_decide.mpr ?_
      constructor
      · intro h1
        by_contra hnb
        push_neg at hnb
        exact absurd (hmaxall x hx hnb) (not_le.mpr h1)
      · intro h1
        exact lt_of_lt_of_le hk0lt h1
    · rw [hiter]
      exact hs.filter _

/-- Witness for C7 on the map `{1 ↦ 10, 2 ↦ 20, 3 ↦ 30}` with bounds 3
and 1. -/
theorem c7_iter_from_prev_key_witness :
    iterFromPrevKey [(1, 10), (2, 20), (3, 30)] (3 : Nat) = [(2, 20), (3, 30)] ∧
    iterFromPrevKey [(1, 10), (2, 20), (3, 30)] (1 : Nat) = [] := by
  have hs : ([(1, 10), (2, 20), (3, 30)] : List (Nat × Nat)).Pairwise
      (fun x y => x.1 < y.1) := by decide
  have h3 := c7_iter_from_prev_key [(1, 10), (2, 20), (3, 30)] 3 hs
  have h1 := c7_iter_from_prev_key [(1, 10), (2, 20), (3, 30)] 1 hs
  constructor
  · obtain ⟨k0, hk0, _, _, _, ⟨v0, hv0mem, hres⟩, _⟩ :=
      h3.2 ⟨(2, 20), by decide, by decide⟩
    have hk0v : ((([(1, 10), (2, 20), (3, 30)] : List (Nat × Nat)).map
        Prod.fst).filter (fun k => k < 3)).max? = some 2 := by decide
    rw [hk0v] at hk0
    have hk02 : k0 = 2 := by
      injection hk0 with hh
      exact hh.symm
    subst hk02
    have hv20 : v0 = 20 := by
      simp only [List.mem_cons, List.not_mem_nil, or_false] at hv0mem
      rcases hv0mem with h | h | h
      · have h2 : (2 : Nat) = 1 := congrArg Prod.fst h
        omega
      · exact congrArg Prod.snd h
      · have h2 : (2 : Nat) = 3 := congrArg Prod.fst h
        omega
    subst hv20
    rw [hres]
    decide
  · exact h1.1 (by decide)

/-- Witness for C1 at capacity 3 with pushes `[1,2,3,4]` (plus one full
push on a concrete full buffer). -/
theorem c1_ringbuffer_push_fifo_witness :
    ((⟨[10, 20, 30], ⟨0, 3, 3⟩⟩ : StableRingBuffer Nat).push 99).2 = some 10 ∧
    StableRingBuffer.absOf ((StableRingBuffer.new Nat 3).pushAll [1, 2, 3, 4]).1
      = ([1, 2, 3, 4].drop 1).map some ∧
    (((StableRingBuffer.new Nat 3).pushAll [1, 2, 3, 4]).2).reduceOption
      = [1, 2, 3, 4].take 1 := by
  have h := c1_ringbuffer_push_fifo (⟨[10, 20, 30], ⟨0, 3, 3⟩⟩ : StableRingBuffer Nat)
    99 (by refine ⟨?_, ?_, ?_, ?_, ?_, Or.inl ?_⟩ <;> decide) 3 1 [1, 2, 3, 4]
    (by decide) (by decide) (by decide) (by decide)
  refine ⟨?_, h.2.2.1, h.2.2.2⟩
  rw [(h.2.1 rfl).2.2.1]
  decide

/-! ## LRU-cached ordered map — `btreemap/cached.rs`

The backing `ic_stable_structures::BTreeMap` (an external collaborator,
specified at its interface boundary: §4.1 of the spec) is modelled as its
ascending association list, with the standard ordered-map operations. -/

section CachedMap

variable {K : Type} [LinearOrder K] {V : Type}

/-- `BTreeMap::get` on the sorted association list. -/
def listGet (l : List (K × V)) (k : K) : Option V :=
  (l.find? (fun e => e.1 = k)).map Prod.snd

/-- `BTreeMap::insert`: sorted insertion, replacing an equal key. -/
def listInsert : List (K × V) → K → V → List (K × V)
  | [], k, v => [(k, v)]
  | (k', v') :: t, k, v =>
    if k < k' then (k, v) :: (k', v') :: t
    else if k = k' then (k, v) :: t
    else (k', v') :: listInsert t k v

/-- `BTreeMap::remove`: drop the entry with the given key. -/
def listRemove (l : List (K × V)) (k : K) : List (K × V) :=
  l.filter (fun e => ¬ e.1 = k)

/-- `BTreeMap::contains_key`. -/
def listContains (l : List (K × V)) (k : K) : Bool :=
  l.any (fun e => e.1 = k)

/-- Modelled from the spec: `common/lru.rs` is declared by
`common/mod.rs` but its source is absent from the repository material; the
LRU Cache is specified in §4.5 and §3 of the spec.  The cache is its
entry list in most-recently-used-first order; the configured capacity
bounds its length (inserting beyond capacity evicts the
least-recently-used entry, i.e. the last one). -/
def lruLookup (c : List (K × V)) (k : K) : Option V :=
  (c.find? (fun e => e.1 = k)).map Prod.snd

/-- Modelled from the spec (§4.5): `insert(key, value)` returns the prior
cached value if any, stores the new entry most-recent-first and evicts
down to capacity. -/
def lruInsert (c : List (K × V)) (cap : Nat) (k : K) (v : V) :
    Option V × List (K × V) :=
  (lruLookup c k, ((k, v) :: c.filter (fun e => ¬ e.1 = k)).take cap)

/-- Modelled from the spec (§4.5): `remove(key)`. -/
def lruRemove (c : List (K × V)) (k : K) : List (K × V) :=
  c.filter (fun e => ¬ e.1 = k)

/-- Modelled from the spec (§4.5): `get_or_insert_with(key, compute)` —
return the cached value (refreshing recency) on a hit; otherwise insert
`compute`'s result when it is `Some` (evicting the least-recently-used
entry at capacity); a double miss caches nothing. -/
def lruGetOrInsertWith (c : List (K × V)) (cap : Nat) (k : K)
    (computed : Option V) : Option V × List (K × V) :=
  match lruLookup c k with
  | some v => (some v, (k, v) :: c.filter (fun e => ¬ e.1 = k))
  | none =>
    match computed with
    | some v => (some v, ((k, v) :: c).take cap)
    | none => (none, c)

/-- Modelled from the spec (§4.5): `contains_key`. -/
def lruContains (c : List (K × V)) (k : K) : Bool :=
  c.any (fun e => e.1 = k)

/-- Modelled from the spec (§4.5): `is_empty`. -/
def lruIsEmpty (c : List (K × V)) : Bool :=
  c.isEmpty

end CachedMap

/-- `CachedBTreeMap`: the backing map plus the LRU cache
(`cached.rs` lines 12-20). -/
structure CachedBTreeMap (K V : Type) where
  inner : List (K × V)
  cache : List (K × V)
  maxCacheItems : Nat

namespace CachedBTreeMap

variable {K : Type} [LinearOrder K] {V : Type}

/-- `CachedBTreeMap::new`: fresh map, empty cache of the given capacity. -/
def new (K V : Type) (maxCacheItems : Nat) : CachedBTreeMap K V :=
  ⟨[], [], maxCacheItems⟩

/-- `get` (lines 63-66): `cache.get_or_insert_with(key, |k| inner.get(k))`;
the interior-mutability update of the cache is returned as the new state. -/
def get (s : CachedBTreeMap K V) (k : K) : Option V × CachedBTreeMap K V :=
  let p := lruGetOrInsertWith s.cache s.maxCacheItems k (listGet s.inner k)
  (p.1, { s with cache := p.2 })

/-- `insert` (lines 70-73): write through to the cache, then to the
backing map, returning the backing map's previous value. -/
def insert (s : CachedBTreeMap K V) (k : K) (v : V) :
    Option V × CachedBTreeMap K V :=
  (listGet s.inner k,
    { s with cache := (lruInsert s.cache s.maxCacheItems k v).2,
             inner := listInsert s.inner k v })

/-- `remove` (lines 75-78). -/
def remove (s : CachedBTreeMap K V) (k : K) : Option V × CachedBTreeMap K V :=
  (listGet s.inner k,
    { s with cache := lruRemove s.cache k, inner := listRemove s.inner k })

/-- `pop_first` (lines 80-85): pop from the backing map and evict the
popped key from the cache. -/
def popFirst (s : CachedBTreeMap K V) : Option (K × V) × CachedBTreeMap K V :=
  match s.inner with
  | [] => (none, s)
  | e :: t => (some e, { s with inner := t, cache := lruRemove s.cache e.1 })

/-- `pop_last` (lines 87-92). -/
def popLast (s : CachedBTreeMap K V) : Option (K × V) × CachedBTreeMap K V :=
  match s.inner.getLast? with
  | none => (none, s)
  | some e => (some e, { s with inner := s.inner.dropLast,
                                cache := lruRemove s.cache e.1 })

/-- `len` (lines 94-96): backing map only. -/
def len (s : CachedBTreeMap K V) : Nat := s.inner.length

/-- `contains_key` (lines 98-100): cache OR backing map. -/
def containsKey (s : CachedBTreeMap K V) (k : K) : Bool :=
  lruContains s.cache k || listContains s.inner k

/-- `is_empty` (lines 102-104): cache empty AND backing map empty. -/
def isEmpty (s : CachedBTreeMap K V) : Bool :=
  lruIsEmpty s.cache && s.inner.isEmpty

/-- `clear` (lines 106-109). -/
def clear (s : CachedBTreeMap K V) : CachedBTreeMap K V :=
  { s with cache := [], inner := [] }

/-- `first_key_value` (lines 112-114): bypasses the cache. -/
def firstKeyValue (s : CachedBTreeMap K V) : Option (K × V) := s.inner.head?

/-- `last_key_value` (lines 117-119): bypasses the cache. -/
def lastKeyValue (s : CachedBTreeMap K V) : Option (K × V) := s.inner.getLast?

end CachedBTreeMap

/-- Every cache entry agrees with the backing map. -/
def Coherent {K V : Type} [LinearOrder K] (s : CachedBTreeMap K V) : Prop :=
  ∀ e ∈ s.cache, listGet s.inner e.1 = some e.2

/-- The backing association list is strictly sorted by key. -/
def SortedMap {K V : Type} [LinearOrder K] (l : List (K × V)) : Prop :=
  l.Pairwise (fun x y => x.1 < y.1)

/-- The internal invariant of a cached map. -/
def CachedInv {K V : Type} [LinearOrder K] (s : CachedBTreeMap K V) : Prop :=
  Coherent s ∧ SortedMap s.inner

section CachedMapLemmas

variable {K : Type} [LinearOrder K] {V : Type}

theorem listGet_cons (h : K × V) (t : List (K × V)) (k : K) :
    listGet (h :: t) k = if h.1 = k then some h.2 else listGet t k := by
  unfold listGet
  by_cases hk : h.1 = k
  · rw [List.find?_cons_of_pos _ (by simpa using hk), if_pos hk]
    rfl
  · rw [List.find?_cons_of_neg _ (by simpa using hk), if_neg hk]

theorem listGet_listInsert_self (l : List (K × V)) (k : K) (v : V) :
    listGet (listInsert l k v) k = some v := by
  induction l with
  | nil =>
    unfold listInsert listGet
    rw [List.find?_cons_of_pos _ (by simp)]
    rfl
  | cons h t ih =>
    unfold listInsert
    by_cases h1 : k < h.1
    · rw [if_pos h1, listGet_cons, if_pos rfl]
    · rw [if_neg h1]
      by_cases h2 : k = h.1
      · rw [if_pos h2, listGet_cons, if_pos rfl]
      · rw [if_neg h2, listGet_cons, if_neg (fun he => h2 he.symm)]
        exact ih

theorem listGet_listInsert_ne (l : List (K × V)) (k k' : K) (v : V)
    (hne : k' ≠ k) : listGet (listInsert l k v) k' = listGet l k' := by
  induction l with
  | nil =>
    unfold listInsert
    rw [listGet_cons, if_neg (fun he => hne he.symm)]
  | cons h t ih =>
    unfold listInsert
    by_cases h1 : k < h.1
    · rw [if_pos h1, listGet_cons, if_neg (fun he => hne he.symm)]
    · rw [if_neg h1]
      by_cases h2 : k = h.1
      · rw [if_pos h2, listGet_cons, if_neg (fun he => hne he.symm), listGet_cons,
          if_neg (fun he => hne (h2.trans he).symm)]
      · rw [if_neg h2, listGet_cons, listGet_cons]
        by_cases h3 : h.1 = k'
        · rw [if_pos h3, if_pos h3]
        · rw [if_neg h3, if_neg h3]
          exact ih

theorem mem_listInsert (l : List (K × V)) (k : K) (v : V) :
    ∀ x ∈ listInsert l k v, x.1 = k ∨ x ∈ l := by
  induction l with
  | nil =>
    intro x hx
    unfold listInsert at hx
    rcases List.mem_cons.mp hx with rfl | hx
    · exact Or.inl rfl
    · simp at hx
  | cons h t ih =>
    intro x hx
    unfold listInsert at hx
    by_cases h1 : k < h.1
    · rw [if_pos h1] at hx
      rcases List.mem_cons.mp hx with rfl | hx
      · exact Or.inl rfl
      · exact Or.inr hx
    · rw [if_neg h1] at hx
      by_cases h2 : k = h.1
      · rw [if_pos h2] at hx
        rcases List.mem_cons.mp hx with rfl | hx
        · exact Or.inl rfl
        · exact Or.inr (List.mem_cons_of_mem _ hx)
      · rw [if_neg h2] at hx
        rcases List.mem_cons.mp hx with rfl | hx
        · exact Or.inr (List.mem_cons_self _ _)
        · rcases ih x hx with h3 | h3
          · exact Or.inl h3
          · exact Or.inr (List.mem_cons_of_mem _ h3)

theorem sortedMap_listInsert (l : List (K × V)) (k : K) (v : V)
    (hs : SortedMap l) : SortedMap (listInsert l k v) := by
  induction l with
  | nil =>
    unfold listInsert SortedMap
    simp
  | cons h t ih =>
    unfold SortedMap at hs ⊢
    rw [List.pairwise_cons] at hs
    unfold listInsert
    by_cases h1 : k < h.1
    · rw [if_pos h1, List.pairwise_cons]
      refine ⟨?_, List.pairwise_cons.mpr hs⟩
      intro x hx
      rcases List.mem_cons.mp hx with rfl | hx
      · exact h1
      · exact lt_trans h1 (hs.1 x hx)
    · rw [if_neg h1]
      by_cases h2 : k = h.1
      · rw [if_pos h2, List.pairwise_cons]
        exact ⟨fun x hx => h2 ▸ hs.1 x hx, hs.2⟩
      · rw [if_neg h2, List.pairwise_cons]
        refine ⟨?_, ih hs.2⟩
        intro x hx
        rcases mem_listInsert t k v x hx with h3 | h3
        · rw [h3]
          rcases lt_trichotomy h.1 k with h4 | h4 | h4
          · exact h4
          · exact absurd h4.symm h2
          · exact absurd h4 h1
        · exact hs.1 x h3

theorem listGet_listRemove_self (l : List (K × V)) (k : K) :
    listGet (listRemove l k) k = none := by
  induction l with
  | nil => rfl
  | cons h t ih =>
    unfold listRemove
    rw [List.filter_cons]
    by_cases h1 : h.1 = k
    · rw [if_neg (by simpa using h1)]
      exact ih
    · rw [if_pos (by simpa using h1), listGet_cons, if_neg h1]
      exact ih

theorem listGet_listRemove_ne (l : List (K × V)) (k k' : K) (hne : k' ≠ k) :
    listGet (listRemove l k) k' = listGet l k' := by
  induction l with
  | nil => rfl
  | cons h t ih =>
    unfold listRemove
    rw [List.filter_cons]
    by_cases h1 : h.1 = k
    · rw [if_neg (by simpa using h1), listGet_cons,
        if_neg (fun he => hne (he.symm.trans h1))]
      exact ih
    · rw [if_pos (by simpa using h1), listGet_cons, listGet_cons]
      by_cases h2 : h.1 = k'
      · rw [if_pos h2, if_pos h2]
      · rw [if_neg h2, if_neg h2]
        exact ih

theorem listGet_dropLast (l : List (K × V)) (k : K)
    (h : ∀ e, l.getLast? = some e → ¬ e.1 = k) :
    listGet l.dropLast k = listGet l k := by
  induction l with
  | nil => rfl
  | cons a t ih =>
    rcases t with _ | ⟨b, t'⟩
    · have ha := h a rfl
      show listGet [] k = listGet [a] k
      rw [listGet_cons, if_neg ha]
    · show listGet (a :: (b :: t').dropLast) k = _
      rw [listGet_cons, listGet_cons]
      by_cases h1 : a.1 = k
      · rw [if_pos h1, if_pos h1]
      · rw [if_neg h1, if_neg h1]
        exact ih (fun e he => h e (by rw [List.getLast?_cons_cons]; exact he))

theorem listContains_of_listGet {l : List (K × V)} {k : K} {v : V}
    (h : listGet l k = some v) : listContains l k = true := by
  unfold listGet at h
  obtain ⟨e, hfind, _⟩ := Option.map_eq_some'.mp h
  refine List.any_eq_true.mpr ⟨e, List.mem_of_find?_eq_some hfind, ?_⟩
  simpa using List.find?_some hfind

theorem lruLookup_coherent {s : CachedBTreeMap K V} (hco : Coherent s)
    {k : K} {v : V} (h : lruLookup s.cache k = some v) :
    listGet s.inner k = some v := by
  unfold lruLookup at h
  obtain ⟨e, hfind, hsnd⟩ := Option.map_eq_some'.mp h
  have hkey : e.1 = k := by simpa using List.find?_some hfind
  have := hco e (List.mem_of_find?_eq_some hfind)
  rw [hkey] at this
  rw [this, hsnd]

theorem lruContains_coherent {s : CachedBTreeMap K V} (hco : Coherent s)
    {k : K} (h : lruContains s.cache k = true) :
    listContains s.inner k = true := by
  obtain ⟨e, hmem, hkey⟩ := List.any_eq_true.mp h
  have hkey' : e.1 = k := by simpa using hkey
  exact listContains_of_listGet (hkey' ▸ hco e hmem)

/-- `contains_key` on a coherent cached map agrees with the backing map. -/
theorem containsKey_agree {s : CachedBTreeMap K V} (hco : Coherent s) (k : K) :
    s.containsKey k = listContains s.inner k := by
  unfold CachedBTreeMap.containsKey
  rcases hcache : lruContains s.cache k with _ | _
  · rw [Bool.false_or]
  · rw [Bool.true_or, lruContains_coherent hco hcache]

/-- `is_empty` on a coherent cached map agrees with the backing map. -/
theorem isEmpty_agree {s : CachedBTreeMap K V} (hco : Coherent s) :
    s.isEmpty = s.inner.isEmpty := by
  unfold CachedBTreeMap.isEmpty
  rcases hinner : s.inner.isEmpty with _ | _
  · rw [Bool.and_false]
  · have hnil : s.inner = [] := List.isEmpty_iff.mp hinner
    have hcache : s.cache = [] := by
      rcases hc : s.cache with _ | ⟨e, t⟩
      · rfl
      · have := hco e (by rw [hc]; exact List.mem_cons_self _ _)
        rw [hnil] at this
        cases this
    rw [hcache]
    rfl

end CachedMapLemmas

/-- The public operations of the `BTreeMapStructure` contract. -/
inductive MapOp (K V : Type) where
  | get (k : K)
  | insert (k : K) (v : V)
  | remove (k : K)
  | popFirst
  | popLast
  | firstKeyValue
  | lastKeyValue
  | clear
  | containsKey (k : K)
  | len
  | isEmpty

/-- The observable result of one operation. -/
inductive MapRes (K V : Type) where
  | value (r : Option V)
  | entry (r : Option (K × V))
  | flag (r : Bool)
  | count (r : Nat)
  | unitRes
deriving DecidableEq

section CachedRuns

variable {K : Type} [LinearOrder K] {V : Type}

/-- One operation on the bare backing map. -/
def bareStep (m : List (K × V)) : MapOp K V → MapRes K V × List (K × V)
  | .get k => (.value (listGet m k), m)
  | .insert k v => (.value (listGet m k), listInsert m k v)
  | .remove k => (.value (listGet m k), listRemove m k)
  | .popFirst => (.entry m.head?, m.tail)
  | .popLast => (.entry m.getLast?, m.dropLast)
  | .firstKeyValue => (.entry m.head?, m)
  | .lastKeyValue => (.entry m.getLast?, m)
  | .clear => (.unitRes, [])
  | .containsKey k => (.flag (listContains m k), m)
  | .len => (.count m.length, m)
  | .isEmpty => (.flag m.isEmpty, m)

/-- One operation on the cached map. -/
def cachedStep (s : CachedBTreeMap K V) :
    MapOp K V → MapRes K V × CachedBTreeMap K V
  | .get k => (.value (s.get k).1, (s.get k).2)
  | .insert k v => (.value (s.insert k v).1, (s.insert k v).2)
  | .remove k => (.value (s.remove k).1, (s.remove k).2)
  | .popFirst => (.entry s.popFirst.1, s.popFirst.2)
  | .popLast => (.entry s.popLast.1, s.popLast.2)
  | .firstKeyValue => (.entry s.firstKeyValue, s)
  | .lastKeyValue => (.entry s.lastKeyValue, s)
  | .clear => (.unitRes, s.clear)
  | .containsKey k => (.flag (s.containsKey k), s)
  | .len => (.count s.len, s)
  | .isEmpty => (.flag s.isEmpty, s)

/-- Result trace of a sequence of operations on the bare map. -/
def bareRun (m : List (K × V)) : List (MapOp K V) → List (MapRes K V)
  | [] => []
  | op :: ops => (bareStep m op).1 :: bareRun (bareStep m op).2 ops

/-- Result trace of a sequence of operations on the cached map. -/
def cachedRun (s : CachedBTreeMap K V) : List (MapOp K V) → List (MapRes K V)
  | [] => []
  | op :: ops => (cachedStep s op).1 :: cachedRun (cachedStep s op).2 ops

/-- One step of the cached map is observationally the bare step, keeps the
backing maps in lock step, and preserves the invariant. -/
theorem cachedStep_refines (s : CachedBTreeMap K V) (hinv : CachedInv s)
    (op : MapOp K V) :
    (cachedStep s op).1 = (bareStep s.inner op).1 ∧
    (cachedStep s op).2.inner = (bareStep s.inner op).2 ∧
    CachedInv (cachedStep s op).2 := by
  obtain ⟨hco, hsort⟩ := hinv
  cases op with
  | get k =>
    refine ⟨?_, rfl, ?_, hsort⟩
    · show MapRes.value (s.get k).1 = MapRes.value (listGet s.inner k)
      congr 1
      unfold CachedBTreeMap.get lruGetOrInsertWith
      simp only
      rcases hl : lruLookup s.cache k with _ | v
      · rcases hg : listGet s.inner k with _ | v <;> rfl
      · exact (lruLookup_coherent hco hl).symm
    · show Coherent (s.get k).2
      intro e he
      unfold CachedBTreeMap.get lruGetOrInsertWith at he
      simp only at he
      rcases hl : lruLookup s.cache k with _ | v <;> rw [hl] at he
      · rcases hg : listGet s.inner k with _ | v <;> rw [hg] at he
        · exact hco e he
        · show listGet s.inner e.1 = some e.2
          rcases List.mem_cons.mp (List.mem_of_mem_take he) with rfl | he'
          · exact hg
          · exact hco e he'
      · show listGet s.inner e.1 = some e.2
        rcases List.mem_cons.mp he with rfl | he'
        · exact lruLookup_coherent hco hl
        · exact hco e (List.mem_filter.mp he').1
  | insert k v =>
    refine ⟨rfl, rfl, ?_, sortedMap_listInsert _ _ _ hsort⟩
    show Coherent (s.insert k v).2
    intro e he
    show listGet (listInsert s.inner k v) e.1 = some e.2
    unfold CachedBTreeMap.insert lruInsert at he
    simp only at he
    rcases List.mem_cons.mp (List.mem_of_mem_take he) with rfl | he'
    · exact listGet_listInsert_self _ _ _
    · obtain ⟨hmem, hkey⟩ := List.mem_filter.mp he'
      have hkey' : ¬ e.1 = k := by simpa using hkey
      rw [listGet_listInsert_ne _ _ _ _ hkey']
      exact hco e hmem
  | remove k =>
    refine ⟨rfl, rfl, ?_, hsort.filter _⟩
    show Coherent (s.remove k).2
    intro e he
    obtain ⟨hmem, hkey⟩ := List.mem_filter.mp he
    have hkey' : ¬ e.1 = k := by simpa using hkey
    show listGet (listRemove s.inner k) e.1 = some e.2
    rw [listGet_listRemove_ne _ _ _ hkey']
    exact hco e hmem
  | popFirst =>
    rcases hm : s.inner with _ | ⟨e, t⟩
    · have h0 : s.popFirst = (none, s) := by
        unfold CachedBTreeMap.popFirst
        rw [hm]
      refine ⟨?_, ?_, ?_, ?_⟩
      · show MapRes.entry s.popFirst.1 = _
        rw [h0]
        rfl
      · show s.popFirst.2.inner = _
        rw [h0, hm]
        rfl
      · show Coherent s.popFirst.2
        rw [h0]
        exact hco
      · show SortedMap s.popFirst.2.inner
        rw [h0]
        exact hsort
    · have h0 : s.popFirst
          = (some e, { s with inner := t, cache := lruRemove s.cache e.1 }) := by
        unfold CachedBTreeMap.popFirst
        rw [hm]
      refine ⟨?_, ?_, ?_, ?_⟩
      · show MapRes.entry s.popFirst.1 = _
        rw [h0]
        rfl
      · show s.popFirst.2.inner = _
        rw [h0]
        rfl
      · show Coherent s.popFirst.2
        rw [h0]
        intro e' he'
        obtain ⟨hmem, hkey⟩ := List.mem_filter.mp he'
        have hkey' : ¬ e'.1 = e.1 := by simpa using hkey
        have hold := hco e' hmem
        rw [hm, listGet_cons, if_neg (fun hx => hkey' hx.symm)] at hold
        exact hold
      · show SortedMap s.popFirst.2.inner
        rw [h0]
        rw [hm] at hsort
        exact List.Pairwise.of_cons hsort
  | popLast =>
    rcases hm : s.inner.getLast? with _ | e
    · have hnil : s.inner = [] := List.getLast?_eq_none_iff.mp hm
      have h0 : s.popLast = (none, s) := by
        unfold CachedBTreeMap.popLast
        rw [hm]
      refine ⟨?_, ?_, ?_, ?_⟩
      · show MapRes.entry s.popLast.1 = MapRes.entry s.inner.getLast?
        rw [h0, hm]
      · show s.popLast.2.inner = s.inner.dropLast
        rw [h0, hnil]
        rfl
      · show Coherent s.popLast.2
        rw [h0]
        exact hco
      · show SortedMap s.popLast.2.inner
        rw [h0]
        exact hsort
    · have h0 : s.popLast = (some e,
          { s with inner := s.inner.dropLast, cache := lruRemove s.cache e.1 }) := by
        unfold CachedBTreeMap.popLast
        rw [hm]
      refine ⟨?_, ?_, ?_, ?_⟩
      · show MapRes.entry s.popLast.1 = MapRes.entry s.inner.getLast?
        rw [h0, hm]
      · show s.popLast.2.inner = s.inner.dropLast
        rw [h0]
      · show Coherent s.popLast.2
        rw [h0]
        intro e' he'
        obtain ⟨hmem, hkey⟩ := List.mem_filter.mp he'
        have hkey' : ¬ e'.1 = e.1 := by simpa using hkey
        show listGet s.inner.dropLast e'.1 = some e'.2
        rw [listGet_dropLast _ _ (fun x hx => by
          rw [hm] at hx
          injection hx with hx
          rw [← hx]
          intro hk
          exact hkey' hk.symm)]
        exact hco e' hmem
      · show SortedMap s.popLast.2.inner
        rw [h0]
        exact List.Pairwise.sublist (List.dropLast_sublist _) hsort
  | firstKeyValue => exact ⟨rfl, rfl, hco, hsort⟩
  | lastKeyValue => exact ⟨rfl, rfl, hco, hsort⟩
  | clear =>
    refine ⟨rfl, rfl, ?_, List.Pairwise.nil⟩
    intro e he
    cases he
  | containsKey k =>
    refine ⟨?_, rfl, hco, hsort⟩
    show MapRes.flag (s.containsKey k) = MapRes.flag (listContains s.inner k)
    rw [containsKey_agree hco]
  | len => exact ⟨rfl, rfl, hco, hsort⟩
  | isEmpty =>
    refine ⟨?_, rfl, hco, hsort⟩
    show MapRes.flag s.isEmpty = MapRes.flag s.inner.isEmpty
    rw [isEmpty_agree hco]

/-- Whole-trace refinement. -/
theorem cachedRun_refines (ops : List (MapOp K V)) :
    ∀ s : CachedBTreeMap K V, CachedInv s →
    cachedRun s ops = bareRun s.inner ops := by
  induction ops with
  | nil => intro s _; rfl
  | cons op ops ih =>
    intro s hinv
    obtain ⟨h1, h2, h3⟩ := cachedStep_refines s hinv op
    show (cachedStep s op).1 :: cachedRun (cachedStep s op).2 ops = _
    rw [h1, ih _ h3, h2]
    rfl

end CachedRuns

/-- Claim C2: cache transparency.  Every sequence of public operations on
a freshly created `CachedBTreeMap` produces exactly the result trace of
the bare backing map, for every cache capacity. -/
theorem c2_cached_map_transparency {K V : Type} [LinearOrder K]
    (c : Nat) (ops : List (MapOp K V)) :
    cachedRun (CachedBTreeMap.new K V c) ops = bareRun ([] : List (K × V)) ops := by
  have hinv : CachedInv (CachedBTreeMap.new K V c) :=
    ⟨fun e he => absurd he (List.not_mem_nil e), List.Pairwise.nil⟩
  exact cachedRun_refines ops _ hinv

/-- Witness for C2: a concrete five-operation trace at cache capacity 1. -/
theorem c2_cached_map_transparency_witness :
    cachedRun (CachedBTreeMap.new Nat Nat 1)
      [MapOp.insert 1 2, MapOp.get 1, MapOp.popFirst, MapOp.get 1, MapOp.isEmpty]
      = bareRun ([] : List (Nat × Nat))
      [MapOp.insert 1 2, MapOp.get 1, MapOp.popFirst, MapOp.get 1, MapOp.isEmpty] :=
  c2_cached_map_transparency 1 _

/-- The states of a `CachedBTreeMap` reachable from a fresh map through
the public operations. -/
inductive Reachable {K V : Type} [LinearOrder K] (c : Nat) :
    CachedBTreeMap K V → Prop where
  | init : Reachable c (CachedBTreeMap.new K V c)
  | get (s : CachedBTreeMap K V) (k : K) :
      Reachable c s → Reachable c (s.get k).2
  | insert (s : CachedBTreeMap K V) (k : K) (v : V) :
      Reachable c s → Reachable c (s.insert k v).2
  | remove (s : CachedBTreeMap K V) (k : K) :
      Reachable c s → Reachable c (s.remove k).2
  | popFirst (s : CachedBTreeMap K V) :
      Reachable c s → Reachable c s.popFirst.2
  | popLast (s : CachedBTreeMap K V) :
      Reachable c s → Reachable c s.popLast.2
  | clear (s : CachedBTreeMap K V) :
      Reachable c s → Reachable c s.clear

/-- Claim C10: cache coherence invariant.  In every reachable state each
cached entry is present in the backing map with the same value, so
`contains_key` and `is_empty` agree with the backing map alone.
(`first_key_value` and `last_key_value` do not change the state.) -/
theorem c10_cached_map_coherence {K V : Type} [LinearOrder K] (c : Nat)
    (s : CachedBTreeMap K V) (hr : Reachable c s) :
    (∀ e ∈ s.cache, listGet s.inner e.1 = some e.2) ∧
    (∀ k, s.containsKey k = listContains s.inner k) ∧
    s.isEmpty = s.inner.isEmpty := by
  have hinv : CachedInv s := by
    induction hr with
    | init => exact ⟨fun e he => absurd he (List.not_mem_nil e), List.Pairwise.nil⟩
    | get s k _ ih => exact (cachedStep_refines s ih (.get k)).2.2
    | insert s k v _ ih => exact (cachedStep_refines s ih (.insert k v)).2.2
    | remove s k _ ih => exact (cachedStep_refines s ih (.remove k)).2.2
    | popFirst s _ ih => exact (cachedStep_refines s ih .popFirst).2.2
    | popLast s _ ih => exact (cachedStep_refines s ih .popLast).2.2
    | clear s _ ih => exact (cachedStep_refines s ih .clear).2.2
  exact ⟨hinv.1, containsKey_agree hinv.1, isEmpty_agree hinv.1⟩

/-- Witness for C10 after one insert at capacity 1. -/
theorem c10_cached_map_coherence_witness :
    ((((CachedBTreeMap.new Nat Nat 1).insert 1 2).2).containsKey 1
      = listContains (((CachedBTreeMap.new Nat Nat 1).insert 1 2).2).inner 1) ∧
    ((((CachedBTreeMap.new Nat Nat 1).insert 1 2).2).isEmpty
      = (((CachedBTreeMap.new Nat Nat 1).insert 1 2).2).inner.isEmpty) := by
  have h := c10_cached_map_coherence 1 (((CachedBTreeMap.new Nat Nat 1).insert 1 2).2)
    (Reachable.insert (CachedBTreeMap.new Nat Nat 1) 1 2 Reachable.init)
  exact ⟨h.2.1 1, h.2.2⟩

/-- Counterexample to claim C4: with cache capacity 0 the freshly inserted
value is immediately evicted, so the cache does not hold it, contradicting
"this holds for every configured cache capacity". -/
theorem c4_cached_map_insert_counterexample :
    ¬ lruLookup ((((CachedBTreeMap.new Nat Nat 0).insert 1 2).2).cache) 1
      = some 2 := by
  decide

/-- Claim C4 (amended): for every cache capacity ≥ 1, after
`insert(k, v)` the LRU cache holds `v` for `k` — a subsequent `get(k)`
returns `Some v` without consulting the backing map (witnessed by a
compute function that returns `none`) — and `insert` returns the backing
map's previous value for `k`. -/
theorem c4_cached_map_insert_writethrough {K V : Type} [LinearOrder K]
    (s : CachedBTreeMap K V) (k : K) (v : V) (hcap : 1 ≤ s.maxCacheItems) :
    lruLookup ((s.insert k v).2).cache k = some v ∧
    (s.insert k v).1 = listGet s.inner k ∧
    (lruGetOrInsertWith ((s.insert k v).2).cache ((s.insert k v).2).maxCacheItems
      k none).1 = some v ∧
    (((s.insert k v).2).get k).1 = some v := by
  have hshape : ((s.insert k v).2).cache
      = (k, v) :: (s.cache.filter (fun e => ¬ e.1 = k)).take (s.maxCacheItems - 1) := by
    show ((k, v) :: s.cache.filter (fun e => ¬ e.1 = k)).take s.maxCacheItems = _
    obtain ⟨n, hn⟩ : ∃ n, s.maxCacheItems = n + 1 := ⟨s.maxCacheItems - 1, by omega⟩
    rw [hn, List.take_succ_cons, Nat.add_sub_cancel]
  have hlook : lruLookup ((s.insert k v).2).cache k = some v := by
    rw [hshape]
    unfold lruLookup
    rw [List.find?_cons_of_pos _ (by simp)]
    rfl
  refine ⟨hlook, rfl, ?_, ?_⟩
  · unfold lruGetOrInsertWith
    rw [hlook]
  · unfold CachedBTreeMap.get lruGetOrInsertWith
    simp only
    rw [hlook]

/-- Witness for C4 (amended) at capacity 1 on a fresh map. -/
theorem c4_cached_map_insert_writethrough_witness :
    lruLookup ((((CachedBTreeMap.new Nat Nat 1).insert 1 2).2).cache) 1 = some 2 ∧
    ((((CachedBTreeMap.new Nat Nat 1).insert 1 2).2).get 1).1 = some 2 := by
  have h := c4_cached_map_insert_writethrough (CachedBTreeMap.new Nat Nat 1) 1 2
    (by decide)
  exact ⟨h.1, h.2.2.2⟩

end IcMple
